import Mathlib

/-!
# cthread: a fixed-size worker-thread pool with a bounded FIFO task queue

A shallow embedding of `src/include/cthread.h` and `src/src/cthread.c`.

* Pointers are natural numbers, `0` is `NULL`.
* The memory reachable from a pool handle is a `State`: the fields of
  `threadpool_t` together with the heap of `task_t` nodes.
* `int` fields are `Int`; `++` and `--` go through `int_wrap` (32 bit).
* A function returns `none` when it dereferences a pointer that does not
  point to a live object; the theorems show that this never happens on a
  pool made by `threadpool_create`.
* The calls `task->function(task->arg)` are recorded in the history of a
  run (`Obs.call`), together with the results of the submissions.
* Everything a thread does between `pthread_mutex_lock` and
  `pthread_mutex_unlock` is one atomic step; the interleavings of the
  threads are the lists of `Event`.
-/

namespace CThread

/-! ## Data model (`cthread.h`) -/

def MAX_THREADS : Int := 10

def MAX_QUEUE : Int := 256

/-- Task structure: `function`, `arg` and `next` are pointers. -/
structure task_t where
  function : Nat
  arg : Nat
  next : Nat
deriving DecidableEq, Repr

/-- The heap of `task_t` nodes: `heap p = none` when no live node is at `p`. -/
abbrev Heap := Nat → Option task_t

/-- Thread pool structure together with the task nodes in the heap.  `lock`
and `work_available` have no data of their own: the lock is the atomicity
of the steps.  A slot of `threads` is `none` until `pthread_create` has
written a handle into it. -/
structure State where
  threads : List (Option Nat)
  queue_head : Nat
  queue_tail : Nat
  thread_count : Int
  queue_size : Int
  shutdown : Int
  heap : Heap

/-- Arithmetic of a 32 bit `int`. -/
def int_wrap (x : Int) : Int := (x + 2147483648) % 4294967296 - 2147483648

/-- The call `malloc(sizeof(task_t))`: the allocator either fails (`0`) or
returns an address at which no live node is; `hint` is the address it would
like to return. -/
def malloc (heap : Heap) (hint : Nat) : Nat :=
  if heap hint = none then hint else 0

/-! ## `threadpool_add_task` (cthread.c 60-108) -/

/-- Returns the `int` result and the memory after the call; the pool handle
is `none` when it is `NULL`. -/
def threadpool_add_task (pool : Option State) (function arg hint : Nat) :
    Option (Int × Option State) :=
  match pool with
  | none => some (-1, none)
  | some s =>
    if function = 0 then some (-1, some s)
    else if s.shutdown ≠ 0 then some (-1, some s)
    else if s.queue_size ≥ MAX_QUEUE then some (-1, some s)
    else
      let task := malloc s.heap hint
      if task = 0 then some (-1, some s)
      else
        let heap1 : Heap := Function.update s.heap task (some ⟨function, arg, 0⟩)
        if s.queue_head = 0 then
          some (0, some { s with
            heap := heap1, queue_head := task, queue_tail := task,
            queue_size := int_wrap (s.queue_size + 1) })
        else
          match heap1 s.queue_tail with
          | none => none
          | some t =>
            some (0, some { s with
              heap := Function.update heap1 s.queue_tail (some { t with next := task }),
              queue_tail := task,
              queue_size := int_wrap (s.queue_size + 1) })

/-! ## `threadpool_worker` (cthread.c 111-148) -/

/-- Where a worker thread is: `waiting` at the top of its loop (or blocked in
`pthread_cond_wait`), `executing task` after it released the lock with the
local variable `task`, `freeing task` after the call of the task's function
returned, `exited` after `pthread_exit`. -/
inductive worker_pc where
  | waiting
  | executing (task : Nat)
  | freeing (task : Nat)
  | exited
deriving DecidableEq, Repr

/-- Lines 115-138: the locked section of one loop iteration. -/
def worker_lock_section (s : State) : Option (State × worker_pc) :=
  if s.queue_size = 0 ∧ s.shutdown = 0 then some (s, worker_pc.waiting)
  else if s.shutdown ≠ 0 then some (s, worker_pc.exited)
  else
    let task := s.queue_head
    if task ≠ 0 then
      match s.heap task with
      | none => none
      | some t =>
        let head := t.next
        some ({ s with
          queue_head := head,
          queue_tail := if head = 0 then 0 else s.queue_tail,
          queue_size := int_wrap (s.queue_size - 1) }, worker_pc.executing task)
    else some (s, worker_pc.executing task)

/-- Lines 141-142: the call `task->function(task->arg)`; the result is the
pair (function, arg) that is called, `none` inside when `task` is `NULL`. -/
def worker_call (s : State) (task : Nat) : Option (Option (Nat × Nat)) :=
  if task ≠ 0 then
    match s.heap task with
    | none => none
    | some t => some (some (t.function, t.arg))
  else some none

/-- Line 143: `free(task)`. -/
def worker_free (s : State) (task : Nat) : Option State :=
  if task ≠ 0 then
    match s.heap task with
    | none => none
    | some _ => some { s with heap := Function.update s.heap task none }
  else some s

/-! ## `threadpool_destroy` (cthread.c 150-181) -/

/-- What a call does to the world outside the pool memory, in program order. -/
inductive Effect where
  | syslog_err
  | syslog_info
  | malloc_pool (ok : Bool)
  | malloc_threads (ok : Bool)
  | mutex_init (ret : Int)
  | cond_init (ret : Int)
  | pthread_create (i : Nat) (handle : Option Nat)
  | cond_broadcast
  | pthread_join (handle : Option Nat)
  | free_task (task : Nat)
  | mutex_destroy
  | cond_destroy
  | free_threads
  | free_pool
deriving DecidableEq, Repr

/-- Lines 155-158: set the flag under the lock and wake every worker. -/
def destroy_signal (s : State) : State := { s with shutdown := 1 }

/-- Lines 161-163: the handles given to `pthread_join`, in order: the slots
`threads[0] .. threads[thread_count - 1]`. -/
def destroy_join (s : State) : List (Option Nat) :=
  (List.range s.thread_count.toNat).map (fun i => s.threads.getD i none)

/-- Lines 166-170: the clean-up loop; `fuel` bounds the number of iterations,
the result is the memory after the loop and the nodes freed, in order; it is
`none` when the fuel runs out before `queue_head` is null or when a node that
is not live is dereferenced. -/
def destroy_drain : Nat → State → Option (State × List Nat)
  | 0, _ => none
  | fuel + 1, s =>
    if s.queue_head ≠ 0 then
      let task := s.queue_head
      match s.heap task with
      | none => none
      | some t =>
        match destroy_drain fuel
            { s with queue_head := t.next, heap := Function.update s.heap task none } with
        | none => none
        | some (s1, freed) => some (s1, task :: freed)
    else some (s, [])

/-- The whole call, for workers that do not touch the pool memory between
the broadcast and the clean-up loop.  The state in the result is the pool
memory just before `free(pool)`. -/
def threadpool_destroy (fuel : Nat) (pool : Option State) :
    Option (Int × Option State × List Effect) :=
  match pool with
  | none => some (-1, none, [])
  | some s =>
    let s1 := destroy_signal s
    let joined := destroy_join s1
    match destroy_drain fuel s1 with
    | none => none
    | some (s2, freed) =>
      some (0, some s2,
        [Effect.cond_broadcast] ++ joined.map Effect.pthread_join
          ++ freed.map Effect.free_task
          ++ [Effect.mutex_destroy, Effect.cond_destroy, Effect.free_threads,
              Effect.free_pool, Effect.syslog_info])

/-! ## `threadpool_create` (cthread.c 11-58) -/

/-- What the library calls made by `threadpool_create` answer:
`pthread_create i` is `none` when the spawn of worker `i` fails and the new
thread handle otherwise. -/
structure create_env where
  malloc_pool : Bool
  malloc_threads : Bool
  mutex_init : Int
  cond_init : Int
  pthread_create : Nat → Option Nat

/-- Lines 48-54: the spawn loop from index `i` with `k` iterations left.  The
first component is the index at which a spawn failed. -/
def spawn_loop (pthread_create : Nat → Option Nat) :
    Nat → Nat → List (Option Nat) → Option Nat × List (Option Nat) × List Effect
  | 0, _, threads => (none, threads, [])
  | k + 1, i, threads =>
    match pthread_create i with
    | none => (some i, threads, [Effect.pthread_create i none])
    | some h =>
      let r := spawn_loop pthread_create k (i + 1) (threads.set i (some h))
      (r.1, r.2.1, Effect.pthread_create i (some h) :: r.2.2)

/-- The handle returned (`none` is `NULL`) and the effects of the call. -/
def threadpool_create (env : create_env) (thread_count : Int) :
    Option State × List Effect :=
  if thread_count ≤ 0 ∨ thread_count > MAX_THREADS then (none, [Effect.syslog_err])
  else if env.malloc_pool = false then
    (none, [Effect.malloc_pool false, Effect.syslog_err])
  else if env.malloc_threads = false then
    (none, [Effect.malloc_pool true, Effect.malloc_threads false, Effect.syslog_err,
            Effect.free_pool])
  else
    let pool : State :=
      { threads := List.replicate thread_count.toNat none
        queue_head := 0
        queue_tail := 0
        thread_count := thread_count
        queue_size := 0
        shutdown := 0
        heap := fun _ => none }
    let allocs := [Effect.malloc_pool true, Effect.malloc_threads true]
    if env.mutex_init ≠ 0 then
      (none, allocs ++ [Effect.mutex_init env.mutex_init, Effect.syslog_err,
                        Effect.free_threads, Effect.free_pool])
    else if env.cond_init ≠ 0 then
      (none, allocs ++ [Effect.mutex_init env.mutex_init, Effect.cond_init env.cond_init,
                        Effect.syslog_err, Effect.free_threads, Effect.free_pool])
    else
      let inits := [Effect.mutex_init env.mutex_init, Effect.cond_init env.cond_init]
      match spawn_loop env.pthread_create thread_count.toNat 0 pool.threads with
      | (none, threads, spawned) =>
        (some { pool with threads := threads },
          allocs ++ inits ++ spawned ++ [Effect.syslog_info])
      | (some _, threads, spawned) =>
        -- the queue is empty here: one round of fuel ends the clean-up loop
        match threadpool_destroy 1 (some { pool with threads := threads }) with
        | none => (none, allocs ++ inits ++ spawned ++ [Effect.syslog_err])
        | some (_, _, destroyed) =>
          (none, allocs ++ inits ++ spawned ++ [Effect.syslog_err] ++ destroyed)

/-! ## The pool and its threads as a transition system -/

/-- The pool memory, the control state of every worker thread, and whether
`threadpool_destroy` has released the pool. -/
structure System where
  mem : State
  workers : List worker_pc
  freed : Bool

/-- The system right after a successful `threadpool_create`: every worker is
at the top of its loop. -/
def boot (s : State) : System :=
  { mem := s, workers := List.replicate s.thread_count.toNat worker_pc.waiting,
    freed := false }

/-- One atomic step of one thread. -/
inductive Event where
  | add_task (function arg hint : Nat)
  | worker_lock (i : Nat)
  | worker_call (i : Nat)
  | worker_free (i : Nat)
  | destroy_signal
  | destroy_finish
deriving DecidableEq, Repr

/-- What a step lets an observer see. -/
inductive Obs where
  | add_task (function arg : Nat) (ret : Int)
  | dequeue (task function arg : Nat)
  | call (task function arg : Nat)
  | discard (task function arg : Nat)
deriving DecidableEq, Repr

/-- Whether every worker has exited, so that every `pthread_join` returns. -/
def all_exited (workers : List worker_pc) : Bool :=
  workers.all (fun pc => pc = worker_pc.exited)

/-- One step.  An event that is not enabled (a worker that is not at that
point of its loop, a join that still blocks, any use of a released pool)
leaves the system as it is; `none` is a memory fault. -/
def step (sys : System) : Event → Option (System × List Obs)
  | Event.add_task function arg hint =>
    if sys.freed then some (sys, [])
    else
      match threadpool_add_task (some sys.mem) function arg hint with
      | some (ret, some s) => some ({ sys with mem := s }, [Obs.add_task function arg ret])
      | _ => none
  | Event.worker_lock i =>
    if sys.freed then some (sys, [])
    else
      match sys.workers[i]? with
      | some worker_pc.waiting =>
        match worker_lock_section sys.mem with
        | none => none
        | some (s, worker_pc.executing task) =>
          some ({ sys with mem := s, workers := sys.workers.set i (worker_pc.executing task) },
            match sys.mem.heap task with
            | some t => [Obs.dequeue task t.function t.arg]
            | none => [])
        | some (s, pc) => some ({ sys with mem := s, workers := sys.workers.set i pc }, [])
      | _ => some (sys, [])
  | Event.worker_call i =>
    if sys.freed then some (sys, [])
    else
      match sys.workers[i]? with
      | some (worker_pc.executing task) =>
        match worker_call sys.mem task with
        | none => none
        | some (some (function, arg)) =>
          some ({ sys with workers := sys.workers.set i (worker_pc.freeing task) },
            [Obs.call task function arg])
        | some none =>
          some ({ sys with workers := sys.workers.set i (worker_pc.freeing task) }, [])
      | _ => some (sys, [])
  | Event.worker_free i =>
    if sys.freed then some (sys, [])
    else
      match sys.workers[i]? with
      | some (worker_pc.freeing task) =>
        match worker_free sys.mem task with
        | none => none
        | some s => some ({ sys with mem := s, workers := sys.workers.set i worker_pc.waiting }, [])
      | _ => some (sys, [])
  | Event.destroy_signal =>
    if sys.freed then some (sys, [])
    else some ({ sys with mem := destroy_signal sys.mem }, [])
  | Event.destroy_finish =>
    if sys.freed then some (sys, [])
    else if sys.mem.shutdown ≠ 0 ∧ all_exited sys.workers = true then
      match destroy_drain (MAX_QUEUE.toNat + 1) sys.mem with
      | none => none
      | some (s, freed) =>
        some ({ sys with mem := s, freed := true },
          freed.filterMap (fun task =>
            (sys.mem.heap task).map (fun t => Obs.discard task t.function t.arg)))
    else some (sys, [])

/-- Run a list of events, collecting what is observed. -/
def run (sys : System) : List Event → Option (System × List Obs)
  | [] => some (sys, [])
  | e :: es =>
    match step sys e with
    | none => none
    | some (sys1, o1) =>
      match run sys1 es with
      | none => none
      | some (sys2, o2) => some (sys2, o1 ++ o2)

/-- The tasks whose submission succeeded, in submission order. -/
def submitted (h : List Obs) : List (Nat × Nat) :=
  h.filterMap (fun o => match o with
    | Obs.add_task f a ret => if ret = 0 then some (f, a) else none
    | _ => none)

/-- The tasks dequeued by workers, in dequeue order. -/
def dequeued (h : List Obs) : List (Nat × Nat) :=
  h.filterMap (fun o => match o with
    | Obs.dequeue _ f a => some (f, a)
    | _ => none)

/-- The execution log: the calls made by workers, in call order. -/
def calls (h : List Obs) : List (Nat × Nat) :=
  h.filterMap (fun o => match o with
    | Obs.call _ f a => some (f, a)
    | _ => none)

/-- The tasks thrown away by the clean-up loop of `threadpool_destroy`. -/
def discarded (h : List Obs) : List (Nat × Nat) :=
  h.filterMap (fun o => match o with
    | Obs.discard _ f a => some (f, a)
    | _ => none)

/-! ## The queue as a list -/

/-- The nodes `addrs` are linked from `p` to `NULL` in this order. -/
def chain (heap : Heap) : Nat → List Nat → Prop
  | p, [] => p = 0
  | p, a :: as =>
    p = a ∧ a ≠ 0 ∧
      match heap a with
      | some t => chain heap t.next as
      | none => False

instance chain_decidable (heap : Heap) :
    (p : Nat) → (addrs : List Nat) → Decidable (chain heap p addrs)
  | p, [] => inferInstanceAs (Decidable (p = 0))
  | p, a :: as =>
    match h : heap a with
    | some t =>
      have := chain_decidable heap t.next as
      decidable_of_iff (p = a ∧ a ≠ 0 ∧ chain heap t.next as) (by simp [chain, h])
    | none => isFalse (by simp [chain, h])

/-- The (function, arg) pairs stored in the nodes `addrs`. -/
def contents (heap : Heap) (addrs : List Nat) : List (Nat × Nat) :=
  addrs.filterMap (fun a => (heap a).map (fun t => (t.function, t.arg)))

/-- The last node of the list, `NULL` for the empty list. -/
def queue_last : List Nat → Nat
  | [] => 0
  | [a] => a
  | _ :: b :: as => queue_last (b :: as)

/-- A live pool: its queue is a well-formed linked list of the nodes `addrs`,
`queue_tail` points to the last of them and `queue_size` counts them. -/
structure queue_ok (s : State) (addrs : List Nat) : Prop where
  linked : chain s.heap s.queue_head addrs
  nodup : addrs.Nodup
  tail : s.queue_tail = queue_last addrs
  size : s.queue_size = addrs.length
  bound : (addrs.length : Int) ≤ MAX_QUEUE

instance queue_ok_decidable (s : State) (addrs : List Nat) : Decidable (queue_ok s addrs) :=
  decidable_of_iff
    (chain s.heap s.queue_head addrs ∧ addrs.Nodup ∧ s.queue_tail = queue_last addrs ∧
      s.queue_size = addrs.length ∧ (addrs.length : Int) ≤ MAX_QUEUE)
    ⟨fun h => ⟨h.1, h.2.1, h.2.2.1, h.2.2.2.1, h.2.2.2.2⟩,
     fun h => ⟨h.linked, h.nodup, h.tail, h.size, h.bound⟩⟩

/-- The task a worker holds in its local variable. -/
def held_of : worker_pc → List Nat
  | worker_pc.executing task => [task]
  | worker_pc.freeing task => [task]
  | _ => []

/-- The tasks held by the workers. -/
def held (workers : List worker_pc) : List Nat := workers.flatMap held_of

/-- The task a worker holds and has not called yet. -/
def exec_of : worker_pc → List Nat
  | worker_pc.executing task => [task]
  | _ => []

/-- The tasks dequeued and not called yet. -/
def held_exec (workers : List worker_pc) : List Nat := workers.flatMap exec_of

/-- The invariant of a pool that is not released: the queue is a well-formed
list of the nodes `addrs`, the nodes held by workers are live and apart from
the queue, and the history `h` agrees with the memory. -/
structure Inv (sys : System) (h : List Obs) (addrs : List Nat) : Prop where
  queue : queue_ok sys.mem addrs
  null : sys.mem.heap 0 = none
  apart : (held sys.workers ++ addrs).Nodup
  live : ∀ t ∈ held sys.workers, sys.mem.heap t ≠ none
  fifo : dequeued h ++ contents sys.mem.heap addrs = submitted h
  log : (calls h ++ contents sys.mem.heap (held_exec sys.workers)).Perm (dequeued h)
  order : sys.workers.length ≤ 1 →
    calls h ++ contents sys.mem.heap (held_exec sys.workers) = dequeued h
  kept : discarded h = []

/-- What the history of a released pool satisfies. -/
structure Final (workers : List worker_pc) (h : List Obs) : Prop where
  fifo : dequeued h ++ discarded h = submitted h
  log : (calls h).Perm (dequeued h)
  order : workers.length ≤ 1 → calls h = dequeued h

/-- What one step from a pool that is not released guarantees: the
invariant again (with the same queue once shutdown is set), no submission and
no dequeue once shutdown is set, calls only of tasks held by workers. -/
structure StepFacts (sys : System) (h : List Obs) (addrs : List Nat)
    (sys1 : System) (o : List Obs) : Prop where
  len : sys1.workers.length = sys.workers.length
  inv : sys1.freed = false →
    ∃ addrs1, Inv sys1 (h ++ o) addrs1 ∧ (sys.mem.shutdown ≠ 0 → addrs1 = addrs)
  shut : sys.mem.shutdown ≠ 0 →
    sys1.mem.shutdown ≠ 0 ∧ submitted o = [] ∧ dequeued o = []
  called : ∀ t f x, Obs.call t f x ∈ o → t ∈ held_exec sys.workers
  final : sys1.freed = true →
    Final sys1.workers (h ++ o) ∧ calls o = [] ∧ (discarded o).length = addrs.length ∧
      sys1.mem.queue_head = 0

/-- The invariant of the system with the history `h`. -/
def Good (sys : System) (h : List Obs) : Prop :=
  (sys.freed = false ∧ ∃ addrs, Inv sys h addrs) ∨
    (sys.freed = true ∧ Final sys.workers h)

/-- The handles given to `pthread_join` by a call, in order. -/
def joined (tr : List Effect) : List (Option Nat) :=
  tr.filterMap (fun e => match e with
    | Effect.pthread_join h => some h
    | _ => none)

/-- Every library call made by `threadpool_create` for `n` workers succeeds. -/
def env_ok (env : create_env) (n : Nat) : Prop :=
  env.malloc_pool = true ∧ env.malloc_threads = true ∧ env.mutex_init = 0 ∧
    env.cond_init = 0 ∧ ∀ i, i < n → env.pthread_create i ≠ none

/-- Successive calls of `threadpool_add_task` with no worker step in between;
a request is (function, arg, hint).  The result is the list of the values
returned, in order, and the memory after the last call. -/
def submit_all : State → List (Nat × Nat × Nat) → Option (List Int × State)
  | s, [] => some ([], s)
  | s, (function, arg, hint) :: rest =>
    match threadpool_add_task (some s) function arg hint with
    | some (ret, some s1) =>
      match submit_all s1 rest with
      | some (rets, s2) => some (ret :: rets, s2)
      | none => none
    | _ => none

/-- The five conditions under which `threadpool_add_task` rejects a call. -/
def add_task_rejects (pool : Option State) (function hint : Nat) : Prop :=
  match pool with
  | none => True
  | some s =>
    function = 0 ∨ s.shutdown ≠ 0 ∨ s.queue_size ≥ MAX_QUEUE ∨ malloc s.heap hint = 0

instance add_task_rejects_decidable (pool : Option State) (function hint : Nat) :
    Decidable (add_task_rejects pool function hint) :=
  match pool with
  | none => isTrue trivial
  | some s =>
    inferInstanceAs (Decidable
      (function = 0 ∨ s.shutdown ≠ 0 ∨ s.queue_size ≥ MAX_QUEUE ∨ malloc s.heap hint = 0))

/-- The values returned by the calls of `threadpool_add_task`, in order. -/
def returns (h : List Obs) : List Int :=
  h.filterMap (fun o => match o with
    | Obs.add_task _ _ ret => some ret
    | _ => none)

/-- The number of calls of `threadpool_add_task` among the events. -/
def add_calls (es : List Event) : Nat :=
  (es.filter (fun e => match e with
    | Event.add_task _ _ _ => true
    | _ => false)).length

/-! ## Sample inputs -/

/-- An environment in which every library call succeeds. -/
def env_all_ok : create_env :=
  { malloc_pool := true
    malloc_threads := true
    mutex_init := 0
    cond_init := 0
    pthread_create := fun i => some (100 + i) }

/-- An environment in which only the spawn of worker 0 succeeds. -/
def env_spawn_fail : create_env :=
  { malloc_pool := true
    malloc_threads := true
    mutex_init := 0
    cond_init := 0
    pthread_create := fun i => if i = 0 then some 100 else none }

/-- The pool that `threadpool_create` returns for one worker. -/
def pool_one : State :=
  { threads := [some 100]
    queue_head := 0
    queue_tail := 0
    thread_count := 1
    queue_size := 0
    shutdown := 0
    heap := fun _ => none }

/-- The effects of the successful `threadpool_create` for one worker. -/
def trace_one : List Effect :=
  [Effect.malloc_pool true, Effect.malloc_threads true, Effect.mutex_init 0,
   Effect.cond_init 0, Effect.pthread_create 0 (some 100), Effect.syslog_info]

/-- Submit the tasks A = (1, 10), B = (2, 20), C = (3, 30); the single worker
runs three rounds; then `threadpool_destroy`. -/
def abc_events : List Event :=
  [Event.add_task 1 10 61, Event.add_task 2 20 62, Event.add_task 3 30 63,
   Event.worker_lock 0, Event.worker_call 0, Event.worker_free 0,
   Event.worker_lock 0, Event.worker_call 0, Event.worker_free 0,
   Event.worker_lock 0, Event.worker_call 0, Event.worker_free 0,
   Event.destroy_signal, Event.worker_lock 0, Event.destroy_finish]

/-- Submit A and B; the worker takes A; `threadpool_destroy` sets the flag
while B is queued. -/
def pending_events : List Event :=
  [Event.add_task 1 10 61, Event.add_task 2 20 62, Event.worker_lock 0,
   Event.destroy_signal]

/-- After `pending_events`: the worker finishes A, a late submission of C is
attempted, the worker exits and `threadpool_destroy` returns. -/
def pending_rest : List Event :=
  [Event.worker_call 0, Event.worker_free 0, Event.add_task 3 30 63,
   Event.worker_lock 0, Event.destroy_finish]

/-- The pool that `threadpool_create` returns for four workers. -/
def pool_four : State :=
  { threads := [some 100, some 101, some 102, some 103]
    queue_head := 0
    queue_tail := 0
    thread_count := 4
    queue_size := 0
    shutdown := 0
    heap := fun _ => none }

/-- The effects of the successful `threadpool_create` for four workers. -/
def trace_four : List Effect :=
  [Effect.malloc_pool true, Effect.malloc_threads true, Effect.mutex_init 0,
   Effect.cond_init 0, Effect.pthread_create 0 (some 100),
   Effect.pthread_create 1 (some 101), Effect.pthread_create 2 (some 102),
   Effect.pthread_create 3 (some 103), Effect.syslog_info]

/-- The memory of `pool_four` when the nodes `lo + 1, ..., hi` are queued in
this order, each an incrementing task (function 7, arg 0). -/
def queue_state (lo hi : Nat) : State :=
  { threads := [some 100, some 101, some 102, some 103]
    queue_head := if lo < hi then lo + 1 else 0
    queue_tail := if lo < hi then hi else 0
    thread_count := 4
    queue_size := ((hi - lo : Nat) : Int)
    shutdown := 0
    heap := fun a => if lo < a ∧ a ≤ hi then some ⟨7, 0, if a = hi then 0 else a + 1⟩ else none }

/-- The memory after a worker took the node `lo + 1` off the queue and before
it freed the node. -/
def mid_state (lo hi : Nat) : State :=
  { queue_state (lo + 1) hi with heap := (queue_state lo hi).heap }

/-- The `n` calls `threadpool_add_task(pool, incr, 0)` whose allocations would
return the addresses `k + 1, ..., k + n`. -/
def submit_events : Nat → Nat → List Event
  | _, 0 => []
  | k, n + 1 => Event.add_task 7 0 (k + 1) :: submit_events (k + 1) n

/-- The first `n` rounds of worker 0: lock, call, free. -/
def drain_events : Nat → List Event
  | 0 => []
  | n + 1 =>
    Event.worker_lock 0 :: Event.worker_call 0 :: Event.worker_free 0 :: drain_events n

/-- What `n` rounds of worker 0 let an observer see when the nodes
`j + 1, ...` are queued. -/
def drain_obs : Nat → Nat → List Obs
  | _, 0 => []
  | j, n + 1 => Obs.dequeue (j + 1) 7 0 :: Obs.call (j + 1) 7 0 :: drain_obs (j + 1) n

/-- 1000 calls of `threadpool_add_task` before any worker step, then 256
rounds of worker 0. -/
def overflow_events : List Event :=
  submit_events 0 256 ++ (submit_events 256 744 ++ drain_events 256)

/-- The four workers see the flag and exit, `threadpool_destroy` returns. -/
def shutdown_events : List Event :=
  [Event.worker_lock 0, Event.worker_lock 1, Event.worker_lock 2, Event.worker_lock 3,
   Event.destroy_finish]

/-- A pool with one worker and one queued task, the node at address 5. -/
def pool_sample : State :=
  { threads := [some 100]
    queue_head := 5
    queue_tail := 5
    thread_count := 1
    queue_size := 1
    shutdown := 0
    heap := Function.update (fun _ => none) 5 (some ⟨11, 12, 0⟩) }

/-! ## Lemmas on linked lists -/

theorem queue_last_concat (l : List Nat) (m : Nat) : queue_last (l ++ [m]) = m := by
  induction l with
  | nil => rfl
  | cons a l ih =>
    cases l with
    | nil => rfl
    | cons b l => simpa [queue_last] using ih

theorem queue_last_mem : ∀ (l : List Nat), l ≠ [] → queue_last l ∈ l
  | [], h => absurd rfl h
  | [a], _ => by simp [queue_last]
  | a :: b :: l, _ => by
    have := queue_last_mem (b :: l) (by simp)
    simp only [queue_last]
    exact List.mem_cons_of_mem _ this

theorem chain_nil {heap : Heap} {p : Nat} : chain heap p [] ↔ p = 0 := Iff.rfl

theorem chain_cons {heap : Heap} {p a : Nat} {as : List Nat} :
    chain heap p (a :: as) ↔
      p = a ∧ a ≠ 0 ∧ ∃ t, heap a = some t ∧ chain heap t.next as := by
  cases h : heap a <;> simp [chain, h]

theorem chain_live {heap : Heap} : ∀ {p : Nat} {addrs : List Nat},
    chain heap p addrs → ∀ a ∈ addrs, a ≠ 0 ∧ heap a ≠ none
  | _, [], _, a, ha => by simp at ha
  | p, b :: as, h, a, ha => by
    obtain ⟨_, hb, t, ht, hc⟩ := chain_cons.1 h
    rcases List.mem_cons.1 ha with rfl | ha
    · exact ⟨hb, by simp [ht]⟩
    · exact chain_live hc a ha

theorem chain_congr {heap heap1 : Heap} : ∀ {p : Nat} {addrs : List Nat},
    (∀ a ∈ addrs, heap1 a = heap a) → chain heap p addrs → chain heap1 p addrs
  | _, [], _, h => h
  | p, b :: as, heq, h => by
    obtain ⟨hp, hb, t, ht, hc⟩ := chain_cons.1 h
    refine chain_cons.2 ⟨hp, hb, t, ?_, ?_⟩
    · rw [heq b (List.mem_cons_self _ _)]; exact ht
    · exact chain_congr (fun a ha => heq a (List.mem_cons_of_mem _ ha)) hc

theorem chain_head_zero {heap : Heap} {p : Nat} {addrs : List Nat}
    (h : chain heap p addrs) : p = 0 ↔ addrs = [] := by
  cases addrs with
  | nil => simpa using h
  | cons a as =>
    obtain ⟨hp, ha, _⟩ := chain_cons.1 h
    simp [hp, ha]

theorem contents_congr {heap heap1 : Heap} {addrs : List Nat}
    (h : ∀ a ∈ addrs, (heap1 a).map (fun t => (t.function, t.arg))
      = (heap a).map (fun t => (t.function, t.arg))) :
    contents heap1 addrs = contents heap addrs := by
  induction addrs with
  | nil => rfl
  | cons a as ih =>
    have h1 := h a (List.mem_cons_self _ _)
    have h2 := ih (fun b hb => h b (List.mem_cons_of_mem _ hb))
    unfold contents at *
    rw [List.filterMap_cons, List.filterMap_cons, h1, h2]

theorem contents_append (heap : Heap) (l1 l2 : List Nat) :
    contents heap (l1 ++ l2) = contents heap l1 ++ contents heap l2 := by
  simp [contents, List.filterMap_append]

/-- Linking a fresh node `m` behind the last node of a non-empty queue. -/
theorem chain_snoc {heap : Heap} {m : Nat} (node : task_t) (hnext : node.next = 0)
    (hm : m ≠ 0) : ∀ {p : Nat} {addrs : List Nat} {t : task_t},
    chain heap p addrs → addrs ≠ [] → addrs.Nodup → m ∉ addrs →
    heap (queue_last addrs) = some t →
    chain (Function.update (Function.update heap m (some node)) (queue_last addrs)
      (some { t with next := m })) p (addrs ++ [m])
  | _, [], _, _, h, _, _, _ => absurd rfl h
  | p, [a], t, hc, _, _, hnot, ht => by
    obtain ⟨hp, ha, t1, ht1, _⟩ := chain_cons.1 hc
    have hma : m ≠ a := fun h => hnot (by simp [h])
    simp only [queue_last] at ht ⊢
    refine chain_cons.2 ⟨hp, ha, { t with next := m }, by simp, ?_⟩
    refine chain_cons.2 ⟨rfl, hm, node, ?_, ?_⟩
    · simp [Function.update, hma]
    · simp [chain, hnext]
  | p, a :: b :: as, t, hc, _, hnd, hnot, ht => by
    obtain ⟨hp, ha, t1, ht1, hc1⟩ := chain_cons.1 hc
    have hnd1 : (b :: as).Nodup := (List.nodup_cons.1 hnd).2
    have hlast : queue_last (b :: as) ∈ b :: as := queue_last_mem _ (by simp)
    have hal : a ≠ queue_last (b :: as) := fun h =>
      (List.nodup_cons.1 hnd).1 (h ▸ hlast)
    have hma : a ≠ m := fun h => hnot (by simp [h])
    have hnot1 : m ∉ b :: as := fun h => hnot (List.mem_cons_of_mem _ h)
    simp only [queue_last] at ht ⊢
    have ih := chain_snoc node hnext hm hc1 (by simp) hnd1 hnot1 ht
    refine chain_cons.2 ⟨hp, ha, t1, ?_, ih⟩
    simp [Function.update, hal, hma, ht1]

/-! ## `threadpool_add_task` -/

theorem int_wrap_eq {x : Int} (h1 : -2147483648 ≤ x) (h2 : x < 2147483648) :
    int_wrap x = x := by
  unfold int_wrap; omega

theorem malloc_fresh {heap : Heap} {hint : Nat} (h : malloc heap hint ≠ 0) :
    malloc heap hint = hint ∧ heap hint = none ∧ hint ≠ 0 := by
  unfold malloc at h ⊢
  by_cases hh : heap hint = none
  · rw [if_pos hh] at h
    exact ⟨if_pos hh, hh, h⟩
  · rw [if_neg hh] at h
    exact absurd rfl h

theorem add_task_eq_empty {s : State} (function arg hint : Nat)
    (hshut : s.shutdown = 0) (hsize : ¬ s.queue_size ≥ MAX_QUEUE)
    (hfun : function ≠ 0) (halloc : malloc s.heap hint ≠ 0) (hhead : s.queue_head = 0) :
    threadpool_add_task (some s) function arg hint = some (0, some { s with
      heap := Function.update s.heap hint (some ⟨function, arg, 0⟩),
      queue_head := hint, queue_tail := hint,
      queue_size := int_wrap (s.queue_size + 1) }) := by
  obtain ⟨hm, _, hm0⟩ := malloc_fresh halloc
  unfold threadpool_add_task
  simp only []
  rw [if_neg hfun, if_neg (not_not.2 hshut), if_neg hsize, hm, if_neg hm0, if_pos hhead]

theorem add_task_eq_linked {s : State} {t : task_t} (function arg hint : Nat)
    (hshut : s.shutdown = 0) (hsize : ¬ s.queue_size ≥ MAX_QUEUE)
    (hfun : function ≠ 0) (halloc : malloc s.heap hint ≠ 0) (hhead : s.queue_head ≠ 0)
    (ht : s.heap s.queue_tail = some t) :
    threadpool_add_task (some s) function arg hint = some (0, some { s with
      heap := Function.update (Function.update s.heap hint (some ⟨function, arg, 0⟩))
        s.queue_tail (some { t with next := hint }),
      queue_tail := hint,
      queue_size := int_wrap (s.queue_size + 1) }) := by
  obtain ⟨hm, hnone, hm0⟩ := malloc_fresh halloc
  have htl : s.queue_tail ≠ hint := fun h => by rw [h, hnone] at ht; exact absurd ht (by simp)
  unfold threadpool_add_task
  simp only []
  rw [if_neg hfun, if_neg (not_not.2 hshut), if_neg hsize, hm, if_neg hm0, if_neg hhead,
    Function.update_noteq htl, ht]

/-- The successful path of `threadpool_add_task` on a live pool. -/
theorem add_task_ok {s : State} {addrs : List Nat} (function arg hint : Nat)
    (hlive : queue_ok s addrs) (hshut : s.shutdown = 0) (hsize : s.queue_size < MAX_QUEUE)
    (hfun : function ≠ 0) (halloc : malloc s.heap hint ≠ 0) :
    ∃ s1, threadpool_add_task (some s) function arg hint = some (0, some s1) ∧
      queue_ok s1 (addrs ++ [hint]) ∧
      contents s1.heap (addrs ++ [hint]) = contents s.heap addrs ++ [(function, arg)] ∧
      s1.queue_size = s.queue_size + 1 ∧ s1.shutdown = s.shutdown ∧
      s1.thread_count = s.thread_count ∧ s1.threads = s.threads ∧
      (∀ a, a ≠ hint → a ∉ addrs → s1.heap a = s.heap a) ∧ s1.heap hint ≠ none := by
  obtain ⟨hm, hnone, hm0⟩ := malloc_fresh halloc
  have hnot : hint ∉ addrs := fun h => (chain_live hlive.linked hint h).2 hnone
  have hsz : int_wrap (s.queue_size + 1) = s.queue_size + 1 := by
    apply int_wrap_eq <;> have := hlive.size <;> unfold MAX_QUEUE at hsize <;> omega
  have hlen : ((addrs ++ [hint]).length : Int) ≤ MAX_QUEUE := by
    have := hlive.size
    simp only [List.length_append, List.length_singleton, Nat.cast_add, Nat.cast_one]
    unfold MAX_QUEUE at hsize ⊢; omega
  have hnd : (addrs ++ [hint]).Nodup := by
    rw [List.nodup_append]
    exact ⟨hlive.nodup, List.nodup_singleton _, by
      intro a ha hb; simp at hb; exact hnot (hb ▸ ha)⟩
  have hge : ¬ s.queue_size ≥ MAX_QUEUE := not_le.2 hsize
  have hsize1 : s.queue_size + 1 = ((addrs ++ [hint]).length : Int) := by
    rw [hlive.size]; simp
  by_cases hhead : s.queue_head = 0
  · have hnil : addrs = [] := (chain_head_zero hlive.linked).1 hhead
    subst hnil
    refine ⟨_, add_task_eq_empty function arg hint hshut hge hfun halloc hhead, ?_⟩
    refine ⟨⟨?_, hnd, rfl, hsz.trans hsize1, hlen⟩, ?_, hsz, rfl, rfl, rfl, ?_, ?_⟩
    · exact chain_cons.2 ⟨rfl, hm0, ⟨function, arg, 0⟩, by simp, rfl⟩
    · simp [contents]
    · intro a ha _; simp [Function.update, ha]
    · simp
  · have hne : addrs ≠ [] := fun h => hhead ((chain_head_zero hlive.linked).2 h)
    have hmem := queue_last_mem addrs hne
    obtain ⟨_, hl⟩ := chain_live hlive.linked _ hmem
    obtain ⟨t, ht⟩ := Option.ne_none_iff_exists'.1 hl
    have htl : s.queue_tail ≠ hint := by
      rw [hlive.tail]; exact fun h => hnot (h ▸ hmem)
    have ht1 : s.heap s.queue_tail = some t := by rw [hlive.tail]; exact ht
    refine ⟨_, add_task_eq_linked function arg hint hshut hge hfun halloc hhead ht1, ?_⟩
    refine ⟨⟨?_, hnd, (queue_last_concat _ _).symm, hsz.trans hsize1, hlen⟩,
      ?_, hsz, rfl, rfl, rfl, ?_, ?_⟩
    · simp only [hlive.tail]
      exact chain_snoc ⟨function, arg, 0⟩ rfl hm0 hlive.linked hne hlive.nodup hnot ht
    · rw [contents_append]
      congr 1
      · apply contents_congr
        intro a ha
        have hah : a ≠ hint := fun h => hnot (h ▸ ha)
        by_cases hat : a = s.queue_tail
        · subst hat
          simp only [Function.update_same, Option.map_some']
          rw [ht1]; rfl
        · simp [Function.update, hat, hah]
      · have : hint ≠ s.queue_tail := fun h => htl h.symm
        simp [contents, Function.update, this]
    · intro a ha hna
      have hat : a ≠ s.queue_tail := by
        rw [hlive.tail]; exact fun h => hna (h ▸ hmem)
      simp [Function.update, hat, ha]
    · have : hint ≠ s.queue_tail := fun h => htl h.symm
      simp [Function.update, this]

/-- A rejected call returns -1 and leaves the memory as it is. -/
theorem add_task_rejected {pool : Option State} {function hint : Nat} (arg : Nat)
    (h : add_task_rejects pool function hint) :
    threadpool_add_task pool function arg hint = some (-1, pool) := by
  cases pool with
  | none => rfl
  | some s =>
    simp only [add_task_rejects] at h
    unfold threadpool_add_task
    by_cases h1 : function = 0
    · simp [h1]
    by_cases h2 : s.shutdown = 0
    swap
    · simp [h1, h2]
    by_cases h3 : s.queue_size ≥ MAX_QUEUE
    · simp [h1, h2, h3]
    have h4 : malloc s.heap hint = 0 := by
      rcases h with h | h | h | h
      · exact absurd h h1
      · exact absurd h2 h
      · exact absurd h h3
      · exact h
    simp [h1, h2, h3, h4]

/-! ## Histories and worker lists -/

theorem submitted_append (h o : List Obs) : submitted (h ++ o) = submitted h ++ submitted o := by
  simp [submitted]

theorem dequeued_append (h o : List Obs) : dequeued (h ++ o) = dequeued h ++ dequeued o := by
  simp [dequeued]

theorem calls_append (h o : List Obs) : calls (h ++ o) = calls h ++ calls o := by
  simp [calls]

theorem discarded_append (h o : List Obs) :
    discarded (h ++ o) = discarded h ++ discarded o := by
  simp [discarded]

theorem contents_perm {heap : Heap} {l1 l2 : List Nat} (h : l1.Perm l2) :
    (contents heap l1).Perm (contents heap l2) :=
  List.Perm.filterMap _ h

theorem exec_of_subset (pc : worker_pc) : ∀ t ∈ exec_of pc, t ∈ held_of pc := by
  cases pc <;> simp [exec_of, held_of]

theorem held_exec_subset : ∀ (ws : List worker_pc), ∀ t ∈ held_exec ws, t ∈ held ws
  | [], t, ht => by simp [held_exec] at ht
  | pc :: ws, t, ht => by
    simp only [held_exec, held, List.flatMap_cons, List.mem_append] at ht ⊢
    rcases ht with ht | ht
    · exact Or.inl (exec_of_subset pc t ht)
    · exact Or.inr (held_exec_subset ws t ht)

theorem held_exec_exited {ws : List worker_pc} (h : all_exited ws = true) :
    held_exec ws = [] := by
  induction ws with
  | nil => rfl
  | cons pc ws ih =>
    simp only [all_exited, List.all_cons, Bool.and_eq_true, decide_eq_true_eq] at h
    have := ih (by simpa [all_exited] using h.2)
    simp only [held_exec, List.flatMap_cons] at this ⊢
    rw [this, h.1]; rfl

/-- The worker list around the worker `i`, and what replacing its control
state does to the tasks held. -/
theorem workers_split : ∀ {ws : List worker_pc} {i : Nat} {pc : worker_pc},
    ws[i]? = some pc → ∃ R E, ∀ pc1,
      (ws.set i pc1).length = ws.length ∧
      (held ws).Perm (held_of pc ++ R) ∧ (held (ws.set i pc1)).Perm (held_of pc1 ++ R) ∧
      (held_exec ws).Perm (exec_of pc ++ E) ∧
      (held_exec (ws.set i pc1)).Perm (exec_of pc1 ++ E) ∧
      (ws.length ≤ 1 → held_exec ws = exec_of pc ∧ held_exec (ws.set i pc1) = exec_of pc1)
  | [], i, pc, h => by simp at h
  | w :: ws, 0, pc, h => by
    simp only [List.getElem?_cons_zero, Option.some.injEq] at h
    subst h
    refine ⟨held ws, held_exec ws, fun pc1 => ⟨by simp, ?_, ?_, ?_, ?_, ?_⟩⟩
    · simp [held]
    · simp [held]
    · simp [held_exec]
    · simp [held_exec]
    · intro hl
      have : ws = [] := by
        cases ws with
        | nil => rfl
        | cons _ _ => simp at hl
      subst this
      simp [held_exec]
  | w :: ws, i + 1, pc, h => by
    simp only [List.getElem?_cons_succ] at h
    obtain ⟨R, E, hRE⟩ := workers_split h
    refine ⟨held_of w ++ R, exec_of w ++ E, fun pc1 => ?_⟩
    obtain ⟨h0, h1, h2, h3, h4, _⟩ := hRE pc1
    refine ⟨by simp, ?_, ?_, ?_, ?_, ?_⟩
    · simp only [held, List.flatMap_cons] at h1 ⊢
      exact (List.Perm.append_left _ h1).trans (by
        rw [← List.append_assoc, ← List.append_assoc]
        exact List.Perm.append_right _ List.perm_append_comm)
    · simp only [held, List.flatMap_cons, List.set_cons_succ] at h2 ⊢
      exact (List.Perm.append_left _ h2).trans (by
        rw [← List.append_assoc, ← List.append_assoc]
        exact List.Perm.append_right _ List.perm_append_comm)
    · simp only [held_exec, List.flatMap_cons] at h3 ⊢
      exact (List.Perm.append_left _ h3).trans (by
        rw [← List.append_assoc, ← List.append_assoc]
        exact List.Perm.append_right _ List.perm_append_comm)
    · simp only [held_exec, List.flatMap_cons, List.set_cons_succ] at h4 ⊢
      exact (List.Perm.append_left _ h4).trans (by
        rw [← List.append_assoc, ← List.append_assoc]
        exact List.Perm.append_right _ List.perm_append_comm)
    · intro hl
      cases ws with
      | nil => simp at h
      | cons _ _ => simp at hl

/-! ## Every step keeps the invariant -/

theorem Inv.history {sys : System} {h h1 : List Obs} {addrs : List Nat}
    (hinv : Inv sys h addrs) (hs : submitted h1 = submitted h)
    (hd : dequeued h1 = dequeued h) (hc : calls h1 = calls h)
    (hk : discarded h1 = discarded h) : Inv sys h1 addrs :=
  { queue := hinv.queue, null := hinv.null, apart := hinv.apart, live := hinv.live
    fifo := by rw [hs, hd]; exact hinv.fifo
    log := by rw [hc, hd]; exact hinv.log
    order := by rw [hc, hd]; exact hinv.order
    kept := by rw [hk]; exact hinv.kept }

/-- A step that changes neither the memory nor what the workers hold. -/
theorem StepFacts.stutter {sys : System} {h : List Obs} {addrs : List Nat}
    (hinv : Inv sys h addrs) (hfreed : sys.freed = false) :
    StepFacts sys h addrs sys [] :=
  { len := rfl
    inv := fun _ => ⟨addrs, by simpa using hinv, fun _ => rfl⟩
    shut := fun hs => ⟨hs, rfl, rfl⟩
    called := fun t f x hm => by simp at hm
    final := fun hf => by rw [hfreed] at hf; exact absurd hf (by simp) }

theorem step_add_task {sys : System} {h : List Obs} {addrs : List Nat}
    (function arg hint : Nat) (hinv : Inv sys h addrs) (hfreed : sys.freed = false) :
    ∃ sys1 o, step sys (Event.add_task function arg hint) = some (sys1, o) ∧
      StepFacts sys h addrs sys1 o := by
  obtain ⟨mem, ws, freed⟩ := sys
  simp only at hfreed
  subst hfreed
  by_cases hrej : add_task_rejects (some mem) function hint
  · have hcall := add_task_rejected arg hrej
    refine ⟨⟨mem, ws, false⟩, [Obs.add_task function arg (-1)], ?_, ?_⟩
    · simp only [step, hcall, Bool.false_eq_true, if_false]
    · exact
        { len := rfl
          inv := fun _ => ⟨addrs, hinv.history (by simp [submitted]) (by simp [dequeued])
            (by simp [calls]) (by simp [discarded]), fun _ => rfl⟩
          shut := fun hs => ⟨hs, by simp [submitted], by simp [dequeued]⟩
          called := fun t f x hm => by simp at hm
          final := fun hf => absurd hf (by simp) }
  · simp only [add_task_rejects, not_or, not_not, ge_iff_le, not_le] at hrej
    obtain ⟨hfun, hshut, hsize, halloc⟩ := hrej
    obtain ⟨s1, hcall, hq, hcont, _, hsh, _, _, hframe, _⟩ :=
      add_task_ok function arg hint hinv.queue hshut hsize hfun halloc
    obtain ⟨_, hnone, hm0⟩ := malloc_fresh halloc
    have hheld : ∀ t ∈ held ws, s1.heap t = mem.heap t := by
      intro t ht
      have h1 : t ≠ hint := fun e => hinv.live t ht (e ▸ hnone)
      have h2 : t ∉ addrs := fun e =>
        (List.nodup_append.1 hinv.apart).2.2 ht e
      exact hframe t h1 h2
    have hexec : contents s1.heap (held_exec ws)
        = contents mem.heap (held_exec ws) :=
      contents_congr (fun t ht => by rw [hheld t (held_exec_subset _ t ht)])
    refine ⟨⟨s1, ws, false⟩, [Obs.add_task function arg 0], ?_, ?_⟩
    · simp only [step, hcall, Bool.false_eq_true, if_false]
    · refine
        { len := rfl
          inv := fun _ => ⟨addrs ++ [hint], ?_, fun hs => absurd hshut hs⟩
          shut := fun hs => absurd hshut hs
          called := fun t f x hm => by simp at hm
          final := fun hf => absurd hf (by simp) }
      refine
        { queue := hq
          null := ?_
          apart := ?_
          live := fun t ht => by
            show s1.heap t ≠ none
            rw [hheld t ht]; exact hinv.live t ht
          fifo := ?_
          log := ?_
          order := ?_
          kept := by simpa [discarded] using hinv.kept }
      · show s1.heap 0 = none
        rw [hframe 0 (Ne.symm hm0) (fun e => (chain_live hinv.queue.linked 0 e).1 rfl)]
        exact hinv.null
      · show (held ws ++ (addrs ++ [hint])).Nodup
        rw [← List.append_assoc, List.nodup_append]
        refine ⟨hinv.apart, List.nodup_singleton _, ?_⟩
        intro t ht hb
        simp only [List.mem_singleton] at hb
        subst hb
        rcases List.mem_append.1 ht with ht | ht
        · exact hinv.live t ht hnone
        · exact (chain_live hinv.queue.linked t ht).2 hnone
      · show dequeued (h ++ [Obs.add_task function arg 0])
            ++ contents s1.heap (addrs ++ [hint])
          = submitted (h ++ [Obs.add_task function arg 0])
        rw [hcont, dequeued_append, submitted_append, ← hinv.fifo]
        simp [dequeued, submitted]
      · show (calls (h ++ [Obs.add_task function arg 0])
            ++ contents s1.heap (held_exec ws)).Perm
          (dequeued (h ++ [Obs.add_task function arg 0]))
        rw [hexec, calls_append, dequeued_append]
        simpa [calls, dequeued] using hinv.log
      · intro hl
        show calls (h ++ [Obs.add_task function arg 0])
            ++ contents s1.heap (held_exec ws)
          = dequeued (h ++ [Obs.add_task function arg 0])
        rw [hexec, calls_append, dequeued_append]
        simpa [calls, dequeued] using hinv.order hl

/-- The three ways through the locked section of a worker on a live pool. -/
theorem lock_section_cases {s : State} {addrs : List Nat} (hq : queue_ok s addrs) :
    (s.queue_size = 0 ∧ s.shutdown = 0 ∧
        worker_lock_section s = some (s, worker_pc.waiting)) ∨
    (s.shutdown ≠ 0 ∧ worker_lock_section s = some (s, worker_pc.exited)) ∨
    (s.queue_size ≠ 0 ∧ s.shutdown = 0 ∧ ∃ a as t s1, addrs = a :: as ∧ a ≠ 0 ∧
        s.heap a = some t ∧ s.queue_head = a ∧
        worker_lock_section s = some (s1, worker_pc.executing a) ∧
        queue_ok s1 as ∧ s1.heap = s.heap ∧ s1.shutdown = s.shutdown ∧
        s1.thread_count = s.thread_count ∧ s1.queue_size = s.queue_size - 1) := by
  by_cases hshut : s.shutdown = 0
  swap
  · refine Or.inr (Or.inl ⟨hshut, ?_⟩)
    unfold worker_lock_section
    rw [if_neg (fun h => hshut h.2), if_pos hshut]
  by_cases hsize : s.queue_size = 0
  · refine Or.inl ⟨hsize, hshut, ?_⟩
    unfold worker_lock_section
    rw [if_pos ⟨hsize, hshut⟩]
  refine Or.inr (Or.inr ⟨hsize, hshut, ?_⟩)
  cases addrs with
  | nil => exact absurd (by simpa using hq.size) hsize
  | cons a as =>
    obtain ⟨hp, ha, t, ht, hc⟩ := chain_cons.1 hq.linked
    have hb := hq.bound
    have hsz := hq.size
    simp only [List.length_cons, Nat.cast_add, Nat.cast_one] at hb hsz
    have hwrap : int_wrap (s.queue_size - 1) = s.queue_size - 1 := by
      rw [int_wrap_eq] <;> unfold MAX_QUEUE at hb <;> omega
    refine ⟨a, as, t, { s with
          queue_head := t.next,
          queue_tail := if t.next = 0 then 0 else s.queue_tail,
          queue_size := int_wrap (s.queue_size - 1) }, rfl, ha, ht, hp, ?_, ?_, rfl, rfl, rfl, hwrap⟩
    · unfold worker_lock_section
      simp only []
      rw [if_neg (fun h => hsize h.1), if_neg (not_not.2 hshut), if_pos (hp ▸ ha), hp, ht]
    · refine ⟨hc, (List.nodup_cons.1 hq.nodup).2, ?_, ?_, ?_⟩
      · show (if t.next = 0 then 0 else s.queue_tail) = queue_last as
        by_cases hn : t.next = 0
        · rw [if_pos hn, (chain_head_zero hc).1 hn]; rfl
        · rw [if_neg hn, hq.tail]
          cases as with
          | nil => exact absurd ((chain_head_zero hc).2 rfl) hn
          | cons b r => rfl
      · show int_wrap (s.queue_size - 1) = (as.length : Int)
        rw [hwrap]; omega
      · unfold MAX_QUEUE at hb ⊢; omega

/-- The invariant only looks at what the workers hold. -/
theorem Inv.workers {mem : State} {ws ws1 : List worker_pc} {h : List Obs}
    {addrs : List Nat} (hinv : Inv ⟨mem, ws, false⟩ h addrs)
    (hheld : (held ws1).Perm (held ws)) (hexec : (held_exec ws1).Perm (held_exec ws))
    (hone : ws1.length ≤ 1 → ws.length ≤ 1 ∧ held_exec ws1 = held_exec ws) :
    Inv ⟨mem, ws1, false⟩ h addrs :=
  { queue := hinv.queue
    null := hinv.null
    apart := (List.Perm.nodup_iff (List.Perm.append_right _ hheld)).2 hinv.apart
    live := fun t ht => hinv.live t (hheld.mem_iff.1 ht)
    fifo := hinv.fifo
    log := (List.Perm.append_left _ (contents_perm hexec)).trans hinv.log
    order := fun hl => by
      show calls h ++ contents mem.heap (held_exec ws1) = dequeued h
      rw [(hone hl).2]; exact hinv.order (hone hl).1
    kept := hinv.kept }

theorem step_worker_lock {sys : System} {h : List Obs} {addrs : List Nat}
    (i : Nat) (hinv : Inv sys h addrs) (hfreed : sys.freed = false) :
    ∃ sys1 o, step sys (Event.worker_lock i) = some (sys1, o) ∧
      StepFacts sys h addrs sys1 o := by
  obtain ⟨mem, ws, freed⟩ := sys
  simp only at hfreed
  subst hfreed
  have hstut : ws[i]? ≠ some worker_pc.waiting →
      step ⟨mem, ws, false⟩ (Event.worker_lock i) = some (⟨mem, ws, false⟩, []) := by
    intro hne
    simp only [step, Bool.false_eq_true, if_false]
  cases hget : ws[i]? with
  | none => exact ⟨_, _, hstut (by simp [hget]), StepFacts.stutter hinv rfl⟩
  | some pc =>
    by_cases hpc : pc = worker_pc.waiting
    swap
    · exact ⟨_, _, hstut (by simpa [hget] using hpc), StepFacts.stutter hinv rfl⟩
    subst hpc
    obtain ⟨R, E, hRE⟩ := workers_split hget
    rcases lock_section_cases hinv.queue with ⟨_, _, hw⟩ | ⟨hshut, hw⟩ |
      ⟨_, hshut, a, as, t, mem1, haddrs, ha, ht, _, hw, hq, hheap, _, _, _⟩
    · obtain ⟨hlen, h1, h2, h3, h4, h5⟩ := hRE worker_pc.waiting
      refine ⟨⟨mem, ws.set i worker_pc.waiting, false⟩, [], ?_, ?_⟩
      · simp only [step, Bool.false_eq_true, if_false, hget]
        rw [hw]
      · have hinv1 : Inv ⟨mem, ws.set i worker_pc.waiting, false⟩ h addrs :=
          hinv.workers (h2.trans h1.symm) (h4.trans h3.symm) (fun hl => by
            rw [hlen] at hl
            exact ⟨hl, (h5 hl).2.trans (h5 hl).1.symm⟩)
        exact
          { len := hlen
            inv := fun _ => ⟨addrs, by simpa using hinv1, fun _ => rfl⟩
            shut := fun hs => ⟨hs, rfl, rfl⟩
            called := fun t f x hm => by simp at hm
            final := fun hf => absurd hf (by simp) }
    · obtain ⟨hlen, h1, h2, h3, h4, h5⟩ := hRE worker_pc.exited
      refine ⟨⟨mem, ws.set i worker_pc.exited, false⟩, [], ?_, ?_⟩
      · simp only [step, Bool.false_eq_true, if_false, hget]
        rw [hw]
      · have hinv1 : Inv ⟨mem, ws.set i worker_pc.exited, false⟩ h addrs :=
          hinv.workers (h2.trans h1.symm) (h4.trans h3.symm) (fun hl => by
            rw [hlen] at hl
            exact ⟨hl, (h5 hl).2.trans (h5 hl).1.symm⟩)
        exact
          { len := hlen
            inv := fun _ => ⟨addrs, by simpa using hinv1, fun _ => rfl⟩
            shut := fun hs => ⟨hs, rfl, rfl⟩
            called := fun t f x hm => by simp at hm
            final := fun hf => absurd hf (by simp) }
    · obtain ⟨hlen, h1, h2, h3, h4, h5⟩ := hRE (worker_pc.executing a)
      subst haddrs
      simp only [held_of, exec_of, List.nil_append, List.singleton_append] at h1 h2 h3 h4 h5
      simp only at hshut ht hw hq hheap
      have hcont : contents mem.heap (a :: as)
          = (t.function, t.arg) :: contents mem.heap as := by
        simp [contents, ht]
      refine ⟨⟨mem1, ws.set i (worker_pc.executing a), false⟩,
        [Obs.dequeue a t.function t.arg], ?_, ?_⟩
      · simp only [step, Bool.false_eq_true, if_false, hget]
        rw [hw]
        simp only [ht]
      · refine
          { len := hlen
            inv := fun _ => ⟨as, ?_, fun hs => absurd hshut hs⟩
            shut := fun hs => absurd hshut hs
            called := fun t f x hm => by simp at hm
            final := fun hf => absurd hf (by simp) }
        refine
          { queue := hq
            null := by show mem1.heap 0 = none; rw [hheap]; exact hinv.null
            apart := ?_
            live := ?_
            fifo := ?_
            log := ?_
            order := ?_
            kept := by simpa [discarded] using hinv.kept }
        · have hp1 : (held (ws.set i (worker_pc.executing a)) ++ as).Perm (a :: (R ++ as)) :=
            List.Perm.append_right _ h2
          have hp2 : (held ws ++ a :: as).Perm (a :: (R ++ as)) :=
            (List.Perm.append_right _ h1).trans List.perm_middle
          exact (List.Perm.nodup_iff (hp1.trans hp2.symm)).2 hinv.apart
        · intro t1 ht1
          rcases List.mem_cons.1 (h2.mem_iff.1 ht1) with e | e
          · show mem1.heap t1 ≠ none
            rw [hheap, e, ht]; simp
          · show mem1.heap t1 ≠ none
            rw [hheap]; exact hinv.live t1 (h1.mem_iff.2 e)
        · show dequeued (h ++ [Obs.dequeue a t.function t.arg]) ++ contents mem1.heap as
            = submitted (h ++ [Obs.dequeue a t.function t.arg])
          rw [hheap, dequeued_append, submitted_append, ← hinv.fifo, hcont]
          simp [dequeued, submitted]
        · show (calls (h ++ [Obs.dequeue a t.function t.arg])
              ++ contents mem1.heap (held_exec (ws.set i (worker_pc.executing a)))).Perm
            (dequeued (h ++ [Obs.dequeue a t.function t.arg]))
          have hlog : (calls h ++ contents mem.heap E).Perm (dequeued h) :=
            (List.Perm.append_left _ (contents_perm h3.symm)).trans hinv.log
          have hE : (contents mem.heap (held_exec (ws.set i (worker_pc.executing a)))).Perm
              ((t.function, t.arg) :: contents mem.heap E) := by
            refine (contents_perm h4).trans ?_
            simp [contents, ht]
          rw [hheap, calls_append, dequeued_append]
          simp only [calls, dequeued, List.filterMap_cons, List.filterMap_nil,
            List.append_nil]
          exact ((List.Perm.append_left _ hE).trans List.perm_middle).trans
            (((List.Perm.cons _ hlog)).trans (List.perm_append_singleton _ _).symm)
        · intro hl
          show calls (h ++ [Obs.dequeue a t.function t.arg])
              ++ contents mem1.heap (held_exec (ws.set i (worker_pc.executing a)))
            = dequeued (h ++ [Obs.dequeue a t.function t.arg])
          have hl1 : ws.length ≤ 1 := by rw [← hlen]; exact hl
          have := hinv.order hl1
          simp only [(h5 hl1).1, (h5 hl1).2] at this ⊢
          rw [hheap, calls_append, dequeued_append, ← this]
          simp [calls, dequeued, contents, ht]

theorem step_worker_call {sys : System} {h : List Obs} {addrs : List Nat}
    (i : Nat) (hinv : Inv sys h addrs) (hfreed : sys.freed = false) :
    ∃ sys1 o, step sys (Event.worker_call i) = some (sys1, o) ∧
      StepFacts sys h addrs sys1 o := by
  obtain ⟨mem, ws, freed⟩ := sys
  simp only at hfreed
  subst hfreed
  have hstut : (∀ t, ws[i]? ≠ some (worker_pc.executing t)) →
      step ⟨mem, ws, false⟩ (Event.worker_call i) = some (⟨mem, ws, false⟩, []) := by
    intro hne
    simp only [step, Bool.false_eq_true, if_false]
  by_cases hex : ∃ t, ws[i]? = some (worker_pc.executing t)
  swap
  · exact ⟨_, _, hstut (fun t ht => hex ⟨t, ht⟩), StepFacts.stutter hinv rfl⟩
  obtain ⟨t, hget⟩ := hex
  obtain ⟨R, E, hRE⟩ := workers_split hget
  obtain ⟨hlen, h1, h2, h3, h4, h5⟩ := hRE (worker_pc.freeing t)
  simp only [held_of, exec_of, List.nil_append, List.singleton_append] at h1 h2 h3 h4 h5
  have hth : t ∈ held ws := h1.mem_iff.2 (List.mem_cons_self _ _)
  obtain ⟨n, hn⟩ := Option.ne_none_iff_exists'.1 (hinv.live t hth)
  simp only at hn
  have ht0 : t ≠ 0 := fun e => by
    have := hinv.null
    simp only at this
    rw [e, this] at hn
    exact absurd hn (by simp)
  have hw : worker_call mem t = some (some (n.function, n.arg)) := by
    unfold worker_call
    rw [if_pos ht0, hn]
  have hcont : (contents mem.heap (held_exec ws)).Perm
      ((n.function, n.arg) :: contents mem.heap E) := by
    refine (contents_perm h3).trans ?_
    simp [contents, hn]
  refine ⟨⟨mem, ws.set i (worker_pc.freeing t), false⟩, [Obs.call t n.function n.arg], ?_, ?_⟩
  · simp only [step, Bool.false_eq_true, if_false, hget, hw]
  · refine
      { len := hlen
        inv := fun _ => ⟨addrs, ?_, fun _ => rfl⟩
        shut := fun hs => ⟨hs, rfl, rfl⟩
        called := fun t1 f x hm => by
          simp only [List.mem_singleton, Obs.call.injEq] at hm
          rw [hm.1]
          exact h3.mem_iff.2 (List.mem_cons_self _ _)
        final := fun hf => absurd hf (by simp) }
    refine
      { queue := hinv.queue
        null := hinv.null
        apart := (List.Perm.nodup_iff (List.Perm.append_right _ (h2.trans h1.symm))).2
          hinv.apart
        live := fun t1 ht1 => hinv.live t1 ((h2.trans h1.symm).mem_iff.1 ht1)
        fifo := by
          rw [dequeued_append, submitted_append]
          simpa [dequeued, submitted] using hinv.fifo
        log := ?_
        order := ?_
        kept := by simpa [discarded] using hinv.kept }
    · show (calls (h ++ [Obs.call t n.function n.arg])
          ++ contents mem.heap (held_exec (ws.set i (worker_pc.freeing t)))).Perm
        (dequeued (h ++ [Obs.call t n.function n.arg]))
      have hlog : (calls h ++ (n.function, n.arg) :: contents mem.heap E).Perm (dequeued h) :=
        (List.Perm.append_left _ hcont.symm).trans hinv.log
      rw [calls_append, dequeued_append]
      simp only [calls, dequeued, List.filterMap_cons, List.filterMap_nil, List.append_nil,
        List.append_assoc, List.singleton_append]
      exact (List.Perm.append_left _ (List.Perm.cons _ (contents_perm h4))).trans hlog
    · intro hl
      show calls (h ++ [Obs.call t n.function n.arg])
          ++ contents mem.heap (held_exec (ws.set i (worker_pc.freeing t)))
        = dequeued (h ++ [Obs.call t n.function n.arg])
      have hl1 : ws.length ≤ 1 := by rw [← hlen]; exact hl
      have := hinv.order hl1
      simp only [(h5 hl1).1, (h5 hl1).2] at this ⊢
      rw [calls_append, dequeued_append, ← this]
      simp [calls, dequeued, contents, hn]

theorem step_worker_free {sys : System} {h : List Obs} {addrs : List Nat}
    (i : Nat) (hinv : Inv sys h addrs) (hfreed : sys.freed = false) :
    ∃ sys1 o, step sys (Event.worker_free i) = some (sys1, o) ∧
      StepFacts sys h addrs sys1 o := by
  obtain ⟨mem, ws, freed⟩ := sys
  simp only at hfreed
  subst hfreed
  have hstut : (∀ t, ws[i]? ≠ some (worker_pc.freeing t)) →
      step ⟨mem, ws, false⟩ (Event.worker_free i) = some (⟨mem, ws, false⟩, []) := by
    intro hne
    simp only [step, Bool.false_eq_true, if_false]
  by_cases hex : ∃ t, ws[i]? = some (worker_pc.freeing t)
  swap
  · exact ⟨_, _, hstut (fun t ht => hex ⟨t, ht⟩), StepFacts.stutter hinv rfl⟩
  obtain ⟨t, hget⟩ := hex
  obtain ⟨R, E, hRE⟩ := workers_split hget
  obtain ⟨hlen, h1, h2, h3, h4, h5⟩ := hRE worker_pc.waiting
  simp only [held_of, exec_of, List.nil_append, List.singleton_append] at h1 h2 h3 h4 h5
  have hth : t ∈ held ws := h1.mem_iff.2 (List.mem_cons_self _ _)
  obtain ⟨n, hn⟩ := Option.ne_none_iff_exists'.1 (hinv.live t hth)
  simp only at hn
  have hnull : mem.heap 0 = none := hinv.null
  have ht0 : t ≠ 0 := fun e => by
    rw [e, hnull] at hn
    exact absurd hn (by simp)
  have hnd : (t :: (R ++ addrs)).Nodup :=
    (List.Perm.nodup_iff (List.Perm.append_right addrs h1)).1 hinv.apart
  have htR : t ∉ R ++ addrs := (List.nodup_cons.1 hnd).1
  have hta : ∀ a ∈ addrs, a ≠ t := fun a ha e =>
    htR (List.mem_append_right _ (e ▸ ha))
  have hth1 : ∀ a ∈ held (ws.set i worker_pc.waiting), a ≠ t := fun a ha e =>
    htR (List.mem_append_left _ (e ▸ h2.mem_iff.1 ha))
  have hw : worker_free mem t
      = some { mem with heap := Function.update mem.heap t none } := by
    unfold worker_free
    rw [if_pos ht0, hn]
  have hexec : contents (Function.update mem.heap t none)
      (held_exec (ws.set i worker_pc.waiting))
      = contents mem.heap (held_exec (ws.set i worker_pc.waiting)) :=
    contents_congr (fun a ha => by
      rw [Function.update_noteq (hth1 a (held_exec_subset _ a ha))])
  have haddrs : contents (Function.update mem.heap t none) addrs
      = contents mem.heap addrs :=
    contents_congr (fun a ha => by rw [Function.update_noteq (hta a ha)])
  refine ⟨⟨{ mem with heap := Function.update mem.heap t none },
    ws.set i worker_pc.waiting, false⟩, [], ?_, ?_⟩
  · simp only [step, Bool.false_eq_true, if_false, hget, hw]
  · refine
      { len := hlen
        inv := fun _ => ⟨addrs, ?_, fun _ => rfl⟩
        shut := fun hs => ⟨hs, rfl, rfl⟩
        called := fun t1 f x hm => by simp at hm
        final := fun hf => absurd hf (by simp) }
    rw [List.append_nil]
    refine
      { queue :=
          ⟨chain_congr (fun a ha => Function.update_noteq (hta a ha) _ _)
            hinv.queue.linked, hinv.queue.nodup, hinv.queue.tail, hinv.queue.size,
            hinv.queue.bound⟩
        null := by
          show Function.update mem.heap t none 0 = none
          rw [Function.update_noteq (Ne.symm ht0)]; exact hnull
        apart := (List.Perm.nodup_iff (List.Perm.append_right addrs h2)).2
          (List.nodup_cons.1 hnd).2
        live := fun a ha => by
          show Function.update mem.heap t none a ≠ none
          rw [Function.update_noteq (hth1 a ha)]
          exact hinv.live a (h1.mem_iff.2 (List.mem_cons_of_mem _ (h2.mem_iff.1 ha)))
        fifo := by
          show dequeued h ++ contents (Function.update mem.heap t none) addrs = submitted h
          rw [haddrs]; exact hinv.fifo
        log := ?_
        order := ?_
        kept := hinv.kept }
    · show (calls h ++ contents (Function.update mem.heap t none)
          (held_exec (ws.set i worker_pc.waiting))).Perm (dequeued h)
      rw [hexec]
      exact (List.Perm.append_left _ (contents_perm (h4.trans h3.symm))).trans hinv.log
    · intro hl
      show calls h ++ contents (Function.update mem.heap t none)
          (held_exec (ws.set i worker_pc.waiting)) = dequeued h
      have hl1 : ws.length ≤ 1 := by rw [← hlen]; exact hl
      have := hinv.order hl1
      simp only [(h5 hl1).1, (h5 hl1).2] at this ⊢
      rw [← this]; rfl

theorem step_destroy_signal {sys : System} {h : List Obs} {addrs : List Nat}
    (hinv : Inv sys h addrs) (hfreed : sys.freed = false) :
    ∃ sys1 o, step sys Event.destroy_signal = some (sys1, o) ∧
      StepFacts sys h addrs sys1 o := by
  obtain ⟨mem, ws, freed⟩ := sys
  simp only at hfreed
  subst hfreed
  refine ⟨⟨destroy_signal mem, ws, false⟩, [], ?_, ?_⟩
  · simp only [step, Bool.false_eq_true, if_false]
  · refine
      { len := rfl
        inv := fun _ => ⟨addrs, ?_, fun _ => rfl⟩
        shut := fun _ => ⟨by simp [destroy_signal], rfl, rfl⟩
        called := fun t1 f x hm => by simp at hm
        final := fun hf => absurd hf (by simp) }
    rw [List.append_nil]
    exact
      { queue := ⟨hinv.queue.linked, hinv.queue.nodup, hinv.queue.tail, hinv.queue.size,
          hinv.queue.bound⟩
        null := hinv.null
        apart := hinv.apart
        live := hinv.live
        fifo := hinv.fifo
        log := hinv.log
        order := hinv.order
        kept := hinv.kept }

/-- The clean-up loop on a well-formed queue: with more fuel than nodes it
ends, frees exactly the nodes of the queue and leaves `queue_head` `NULL`. -/
theorem drain_ok : ∀ (addrs : List Nat) (s : State) (fuel : Nat),
    chain s.heap s.queue_head addrs → addrs.Nodup → addrs.length < fuel →
    ∃ s1, destroy_drain fuel s = some (s1, addrs) ∧ s1.queue_head = 0 ∧
      (∀ a ∈ addrs, s1.heap a = none) ∧ (∀ a, a ∉ addrs → s1.heap a = s.heap a) ∧
      s1.shutdown = s.shutdown ∧ s1.thread_count = s.thread_count ∧
      s1.queue_size = s.queue_size ∧ s1.queue_tail = s.queue_tail
  | [], s, 0, _, _, hf => by simp at hf
  | [], s, fuel + 1, hc, _, _ => by
    have hp : s.queue_head = 0 := hc
    refine ⟨s, ?_, hp, by simp, fun _ _ => rfl, rfl, rfl, rfl, rfl⟩
    unfold destroy_drain
    rw [if_neg (not_not.2 hp)]
  | a :: as, s, 0, _, _, hf => by simp at hf
  | a :: as, s, fuel + 1, hc, hnd, hf => by
    obtain ⟨hp, ha, t, ht, hc1⟩ := chain_cons.1 hc
    have hnot : a ∉ as := (List.nodup_cons.1 hnd).1
    have hc2 : chain (Function.update s.heap a none) t.next as :=
      chain_congr (fun b hb => Function.update_noteq
        (fun e : b = a => hnot (by rw [← e]; exact hb)) _ _) hc1
    obtain ⟨s1, hd, hh, hfree, hkeep, h1, h2, h3, h4⟩ :=
      drain_ok as { s with queue_head := t.next, heap := Function.update s.heap a none }
        fuel hc2 (List.nodup_cons.1 hnd).2 (by simpa using hf)
    refine ⟨s1, ?_, hh, ?_, ?_, h1, h2, h3, h4⟩
    · rw [destroy_drain, if_pos (hp ▸ ha)]
      simp only [hp, ht, hd]
    · intro b hb
      rcases List.mem_cons.1 hb with e | e
      · by_cases hba : a ∈ as
        · exact absurd hba hnot
        · rw [e, hkeep a hnot]; simp
      · exact hfree b e
    · intro b hb
      have hba : b ≠ a := fun e => hb (e ▸ List.mem_cons_self _ _)
      rw [hkeep b (fun e => hb (List.mem_cons_of_mem _ e))]
      simp [Function.update, hba]

theorem contents_length {heap : Heap} : ∀ {l : List Nat},
    (∀ a ∈ l, heap a ≠ none) → (contents heap l).length = l.length
  | [], _ => rfl
  | a :: l, h => by
    obtain ⟨n, hn⟩ := Option.ne_none_iff_exists'.1 (h a (List.mem_cons_self _ _))
    have := contents_length (l := l) (fun b hb => h b (List.mem_cons_of_mem _ hb))
    simp only [contents, List.filterMap_cons, hn, Option.map_some', List.length_cons] at this ⊢
    rw [this]

/-- What the observations of the clean-up loop are. -/
theorem discard_obs (heap : Heap) : ∀ (l : List Nat),
    discarded (l.filterMap (fun task =>
        (heap task).map (fun t => Obs.discard task t.function t.arg))) = contents heap l ∧
    calls (l.filterMap (fun task =>
        (heap task).map (fun t => Obs.discard task t.function t.arg))) = [] ∧
    dequeued (l.filterMap (fun task =>
        (heap task).map (fun t => Obs.discard task t.function t.arg))) = [] ∧
    submitted (l.filterMap (fun task =>
        (heap task).map (fun t => Obs.discard task t.function t.arg))) = []
  | [] => ⟨rfl, rfl, rfl, rfl⟩
  | a :: l => by
    obtain ⟨h1, h2, h3, h4⟩ := discard_obs heap l
    cases ha : heap a with
    | none =>
      simp only [List.filterMap_cons, ha, Option.map_none', contents]
      exact ⟨h1, h2, h3, h4⟩
    | some t =>
      simp only [List.filterMap_cons, ha, Option.map_some', contents]
      refine ⟨?_, ?_, ?_, ?_⟩
      · simp only [discarded, List.filterMap_cons] at h1 ⊢
        rw [h1]; rfl
      · simpa only [calls, List.filterMap_cons] using h2
      · simpa only [dequeued, List.filterMap_cons] using h3
      · simpa only [submitted, List.filterMap_cons] using h4

theorem calls_nil_mem {o : List Obs} (h : calls o = []) (t f x : Nat) :
    Obs.call t f x ∉ o := by
  intro hm
  have : (f, x) ∈ calls o := by
    simp only [calls, List.mem_filterMap]
    exact ⟨_, hm, rfl⟩
  rw [h] at this
  exact absurd this (by simp)

theorem step_destroy_finish {sys : System} {h : List Obs} {addrs : List Nat}
    (hinv : Inv sys h addrs) (hfreed : sys.freed = false) :
    ∃ sys1 o, step sys Event.destroy_finish = some (sys1, o) ∧
      StepFacts sys h addrs sys1 o := by
  obtain ⟨mem, ws, freed⟩ := sys
  simp only at hfreed
  subst hfreed
  by_cases hc : mem.shutdown ≠ 0 ∧ all_exited ws = true
  swap
  · refine ⟨⟨mem, ws, false⟩, [], ?_, StepFacts.stutter hinv rfl⟩
    simp only [step, Bool.false_eq_true, if_false]
    rw [if_neg hc]
  have hlen : addrs.length < MAX_QUEUE.toNat + 1 := by
    have := hinv.queue.bound
    unfold MAX_QUEUE at this ⊢
    have h256 : (256 : Int).toNat = 256 := rfl
    omega
  obtain ⟨s1, hd, hnull, _, _, hsh, _, _, _⟩ :=
    drain_ok addrs mem _ hinv.queue.linked hinv.queue.nodup hlen
  obtain ⟨o1, o2, o3, o4⟩ := discard_obs mem.heap addrs
  have hex := held_exec_exited hc.2
  refine ⟨⟨s1, ws, true⟩, addrs.filterMap (fun task =>
    (mem.heap task).map (fun t => Obs.discard task t.function t.arg)), ?_, ?_⟩
  · simp only [step, Bool.false_eq_true, if_false]
    rw [if_pos hc, hd]
  · refine
      { len := rfl
        inv := fun hf => absurd hf (by simp)
        shut := fun hs => ⟨by show s1.shutdown ≠ 0; rw [hsh]; exact hs, o4, o3⟩
        called := fun t f x hm => absurd hm (calls_nil_mem o2 t f x)
        final := fun _ => ⟨?_, o2, ?_, hnull⟩ }
    · refine ⟨?_, ?_, ?_⟩
      · rw [dequeued_append, discarded_append, submitted_append, o1, o3, o4, hinv.kept]
        simpa using hinv.fifo
      · have := hinv.log
        simp only [hex, contents, List.filterMap_nil, List.append_nil] at this
        rw [calls_append, dequeued_append, o2, o3]
        simpa using this
      · intro hl
        have := hinv.order hl
        simp only [hex, contents, List.filterMap_nil, List.append_nil] at this
        rw [calls_append, dequeued_append, o2, o3]
        simpa using this
    · rw [o1]
      exact contents_length (fun a ha => (chain_live hinv.queue.linked a ha).2)

/-- Every step from a pool that is not released succeeds and keeps the
invariant. -/
theorem step_facts {sys : System} {h : List Obs} {addrs : List Nat} (e : Event)
    (hinv : Inv sys h addrs) (hfreed : sys.freed = false) :
    ∃ sys1 o, step sys e = some (sys1, o) ∧ StepFacts sys h addrs sys1 o := by
  cases e with
  | add_task f a hint => exact step_add_task f a hint hinv hfreed
  | worker_lock i => exact step_worker_lock i hinv hfreed
  | worker_call i => exact step_worker_call i hinv hfreed
  | worker_free i => exact step_worker_free i hinv hfreed
  | destroy_signal => exact step_destroy_signal hinv hfreed
  | destroy_finish => exact step_destroy_finish hinv hfreed

/-- A released pool is not touched any more. -/
theorem step_freed {sys : System} (e : Event) (hfreed : sys.freed = true) :
    step sys e = some (sys, []) := by
  cases e <;> simp [step, hfreed]

theorem run_freed {sys : System} (hfreed : sys.freed = true) :
    ∀ (es : List Event), run sys es = some (sys, [])
  | [] => rfl
  | e :: es => by
    rw [run, step_freed e hfreed]
    simp only [run_freed hfreed es, List.append_nil]

theorem run_cons (sys : System) (e : Event) (es : List Event) :
    run sys (e :: es) =
      match step sys e with
      | none => none
      | some (sys1, o1) =>
        match run sys1 es with
        | none => none
        | some (sys2, o2) => some (sys2, o1 ++ o2) := rfl

theorem run_append (sys : System) (es1 es2 : List Event) :
    run sys (es1 ++ es2) =
      match run sys es1 with
      | none => none
      | some (sys1, o1) =>
        match run sys1 es2 with
        | none => none
        | some (sys2, o2) => some (sys2, o1 ++ o2) := by
  induction es1 generalizing sys with
  | nil =>
    simp only [List.nil_append, run]
    cases run sys es2 with
    | none => rfl
    | some r => simp
  | cons e es ih =>
    rw [List.cons_append, run_cons, run_cons]
    cases step sys e with
    | none => rfl
    | some r =>
      obtain ⟨sys1, o1⟩ := r
      simp only []
      rw [ih]
      cases run sys1 es with
      | none => rfl
      | some r1 =>
        obtain ⟨sys2, o2⟩ := r1
        simp only []
        cases run sys2 es2 with
        | none => rfl
        | some r2 => simp

/-- Every run from a good system succeeds and ends in a good system. -/
theorem run_good : ∀ (es : List Event) (sys : System) (h : List Obs), Good sys h →
    ∃ sys1 o, run sys es = some (sys1, o) ∧ Good sys1 (h ++ o) ∧
      sys1.workers.length = sys.workers.length
  | [], sys, h, hg => ⟨sys, [], rfl, by simpa using hg, rfl⟩
  | e :: es, sys, h, hg => by
    rcases hg with ⟨hfreed, addrs, hinv⟩ | ⟨hfreed, hfin⟩
    · obtain ⟨sys1, o1, hstep, hfacts⟩ := step_facts e hinv hfreed
      have hg1 : Good sys1 (h ++ o1) := by
        cases hf : sys1.freed with
        | false => exact Or.inl ⟨hf, (hfacts.inv hf).imp (fun _ hx => hx.1)⟩
        | true => exact Or.inr ⟨hf, (hfacts.final hf).1⟩
      obtain ⟨sys2, o2, hrun, hg2, hl2⟩ := run_good es sys1 (h ++ o1) hg1
      refine ⟨sys2, o1 ++ o2, ?_, by rw [← List.append_assoc]; exact hg2,
        hl2.trans hfacts.len⟩
      simp only [run, hstep, hrun]
    · refine ⟨sys, [], run_freed hfreed _, by simpa using Or.inr ⟨hfreed, hfin⟩, rfl⟩

/-! ## `threadpool_create` -/

theorem spawn_loop_ok (pc : Nat → Option Nat) : ∀ (k i : Nat) (threads : List (Option Nat)),
    (∀ j, j < i + k → pc j ≠ none) → (spawn_loop pc k i threads).1 = none
  | 0, _, _, _ => rfl
  | k + 1, i, threads, h => by
    obtain ⟨t, ht⟩ := Option.ne_none_iff_exists'.1 (h i (by omega))
    simp only [spawn_loop, ht]
    exact spawn_loop_ok pc k (i + 1) _ (fun j hj => h j (by omega))

/-- A call with an argument out of range does nothing but log the error. -/
theorem create_invalid (env : create_env) (thread_count : Int)
    (h : thread_count ≤ 0 ∨ thread_count > MAX_THREADS) :
    threadpool_create env thread_count = (none, [Effect.syslog_err]) := by
  unfold threadpool_create
  rw [if_pos h]

/-- The pool that a successful call returns. -/
theorem create_some {env : create_env} {thread_count : Int} {s : State}
    {tr : List Effect} (h : threadpool_create env thread_count = (some s, tr)) :
    0 < thread_count ∧ thread_count ≤ MAX_THREADS ∧ s.thread_count = thread_count ∧
      s.queue_size = 0 ∧ s.queue_head = 0 ∧ s.queue_tail = 0 ∧ s.shutdown = 0 ∧
      s.heap = (fun _ => none) := by
  unfold threadpool_create at h
  by_cases h1 : thread_count ≤ 0 ∨ thread_count > MAX_THREADS
  · rw [if_pos h1] at h; simp at h
  rw [if_neg h1] at h
  by_cases h2 : env.malloc_pool = false
  · rw [if_pos h2] at h; simp at h
  rw [if_neg h2] at h
  by_cases h3 : env.malloc_threads = false
  · rw [if_pos h3] at h; simp at h
  rw [if_neg h3] at h
  simp only [] at h
  by_cases h4 : env.mutex_init ≠ 0
  · rw [if_pos h4] at h; simp at h
  rw [if_neg h4] at h
  by_cases h5 : env.cond_init ≠ 0
  · rw [if_pos h5] at h; simp at h
  rw [if_neg h5] at h
  have hr : 0 < thread_count ∧ thread_count ≤ MAX_THREADS := by
    simp only [not_or, not_le, gt_iff_lt, not_lt] at h1; exact h1
  split at h
  · simp only [Prod.mk.injEq, Option.some.injEq] at h
    rw [← h.1]
    exact ⟨hr.1, hr.2, rfl, rfl, rfl, rfl, rfl, rfl⟩
  · split at h <;> simp at h

/-- With every library call successful, a call with an argument in range
returns a pool. -/
theorem create_ok {env : create_env} {thread_count : Int}
    (h1 : 0 < thread_count) (h2 : thread_count ≤ MAX_THREADS)
    (henv : env_ok env thread_count.toNat) :
    ∃ s tr, threadpool_create env thread_count = (some s, tr) := by
  obtain ⟨e1, e2, e3, e4, e5⟩ := henv
  have hs := spawn_loop_ok env.pthread_create thread_count.toNat 0
    (List.replicate thread_count.toNat none) (fun j hj => e5 j (by omega))
  unfold threadpool_create
  rw [if_neg (by simp only [not_or, not_le, gt_iff_lt, not_lt]; exact ⟨h1, h2⟩),
    if_neg (by simp [e1]), if_neg (by simp [e2])]
  simp only []
  rw [if_neg (not_not.2 e3), if_neg (not_not.2 e4)]
  split
  · exact ⟨_, _, rfl⟩
  · next i _ _ heq =>
    rw [heq] at hs
    simp at hs

theorem held_waiting : ∀ (n : Nat),
    held (List.replicate n worker_pc.waiting) = [] ∧
      held_exec (List.replicate n worker_pc.waiting) = []
  | 0 => ⟨rfl, rfl⟩
  | n + 1 => by
    obtain ⟨h1, h2⟩ := held_waiting n
    simp only [held, held_exec, List.replicate_succ, List.flatMap_cons] at h1 h2 ⊢
    rw [h1, h2]
    exact ⟨rfl, rfl⟩

/-- The invariant holds right after `threadpool_create`. -/
theorem boot_inv {env : create_env} {thread_count : Int} {s : State}
    {tr : List Effect} (h : threadpool_create env thread_count = (some s, tr)) :
    Inv (boot s) [] [] := by
  obtain ⟨_, _, _, hsize, hhead, htail, _, hheap⟩ := create_some h
  obtain ⟨hw1, hw2⟩ := held_waiting s.thread_count.toNat
  exact
    { queue := ⟨hhead, List.nodup_nil, htail, by simpa using hsize, by
        unfold MAX_QUEUE; simp⟩
      null := by show s.heap 0 = none; rw [hheap]
      apart := by show (held (List.replicate _ _) ++ []).Nodup; rw [hw1]; simp
      live := fun t ht => by
        have : t ∈ held (List.replicate s.thread_count.toNat worker_pc.waiting) := ht
        rw [hw1] at this; simp at this
      fifo := rfl
      log := by
        show (calls [] ++ contents s.heap (held_exec (List.replicate _ _))).Perm (dequeued [])
        rw [hw2]; exact List.Perm.refl _
      order := fun _ => by
        show calls [] ++ contents s.heap (held_exec (List.replicate _ _)) = dequeued []
        rw [hw2]; rfl
      kept := rfl }

theorem boot_good {env : create_env} {thread_count : Int} {s : State}
    {tr : List Effect} (h : threadpool_create env thread_count = (some s, tr)) :
    Good (boot s) [] :=
  Or.inl ⟨rfl, [], boot_inv h⟩

/-! ## After shutdown -/

theorem chain_unique {heap : Heap} : ∀ {p : Nat} {l1 l2 : List Nat},
    chain heap p l1 → chain heap p l2 → l1 = l2
  | _, [], [], _, _ => rfl
  | p, [], b :: l2, h1, h2 => by
    have hp : p = 0 := h1
    obtain ⟨hb, hb0, _⟩ := chain_cons.1 h2
    exact absurd (hb ▸ hp) hb0
  | p, a :: l1, [], h1, h2 => by
    have hp : p = 0 := h2
    obtain ⟨ha, ha0, _⟩ := chain_cons.1 h1
    exact absurd (ha ▸ hp) ha0
  | p, a :: l1, b :: l2, h1, h2 => by
    obtain ⟨ha, _, t, ht, hc1⟩ := chain_cons.1 h1
    obtain ⟨hb, _, u, hu, hc2⟩ := chain_cons.1 h2
    have hab : a = b := ha.symm.trans hb
    subst hab
    rw [ht] at hu
    simp only [Option.some.injEq] at hu
    subst hu
    rw [chain_unique hc1 hc2]

/-- Once shutdown is set the queue is frozen: every run succeeds, the flag
stays set, nothing is submitted or dequeued, no node of the queue is called,
and the queue is the same list of nodes until the pool is released. -/
theorem run_frozen : ∀ (es : List Event) (sys : System) (h : List Obs) (addrs : List Nat),
    Inv sys h addrs → sys.freed = false → sys.mem.shutdown ≠ 0 →
    ∃ sys1 o, run sys es = some (sys1, o) ∧ sys1.mem.shutdown ≠ 0 ∧
      submitted o = [] ∧ dequeued o = [] ∧
      (∀ t f x, Obs.call t f x ∈ o → t ∉ addrs) ∧
      (sys1.freed = false → Inv sys1 (h ++ o) addrs) ∧
      (sys1.freed = true → Final sys1.workers (h ++ o) ∧
        (discarded o).length = addrs.length ∧ sys1.mem.queue_head = 0)
  | [], sys, h, addrs, hinv, hfreed, hshut =>
    ⟨sys, [], rfl, hshut, rfl, rfl, fun _ _ _ hm => by simp at hm,
      fun _ => by simpa using hinv, fun hf => by rw [hfreed] at hf; exact absurd hf (by simp)⟩
  | e :: es, sys, h, addrs, hinv, hfreed, hshut => by
    obtain ⟨sys1, o1, hstep, hfacts⟩ := step_facts e hinv hfreed
    obtain ⟨hshut1, hsub1, hdeq1⟩ := hfacts.shut hshut
    have hcall1 : ∀ t f x, Obs.call t f x ∈ o1 → t ∉ addrs := fun t f x hm ha =>
      (List.nodup_append.1 hinv.apart).2.2
        (held_exec_subset _ t (hfacts.called t f x hm)) ha
    cases hf : sys1.freed with
    | false =>
      obtain ⟨addrs1, hinv1, heq⟩ := hfacts.inv hf
      rw [heq hshut] at hinv1
      obtain ⟨sys2, o2, hrun, hshut2, hsub2, hdeq2, hcall2, hinv2, hfin2⟩ :=
        run_frozen es sys1 (h ++ o1) addrs hinv1 hf hshut1
      refine ⟨sys2, o1 ++ o2, by simp only [run, hstep, hrun], hshut2, ?_, ?_, ?_, ?_, ?_⟩
      · rw [submitted_append, hsub1, hsub2]; rfl
      · rw [dequeued_append, hdeq1, hdeq2]; rfl
      · intro t f x hm
        rcases List.mem_append.1 hm with hm | hm
        · exact hcall1 t f x hm
        · exact hcall2 t f x hm
      · intro hf2
        rw [← List.append_assoc]; exact hinv2 hf2
      · intro hf2
        obtain ⟨g1, g2, g4⟩ := hfin2 hf2
        refine ⟨by rw [← List.append_assoc]; exact g1, ?_, g4⟩
        have hk : discarded o1 = [] := by
          have := hinv1.kept
          rw [discarded_append, hinv.kept] at this
          simpa using this
        rw [discarded_append, hk]; simpa using g2
    | true =>
      obtain ⟨g1, _, g3, g4⟩ := hfacts.final hf
      refine ⟨sys1, o1, ?_, hshut1, hsub1, hdeq1, hcall1,
        fun hf2 => by rw [hf] at hf2; exact absurd hf2 (by simp), fun _ => ⟨g1, g3, g4⟩⟩
      simp only [run, hstep, run_freed hf es, List.append_nil]

/-! ## The claims -/

/-- C1: on a live pool (a well-formed queue of the nodes `addrs`) with
`shutdown` false and `queue_size < MAX_QUEUE`, a call with a non-null
function whose task allocation succeeds returns 0; the new queue is the old
nodes in the same order followed by the new node, its contents are the old
contents followed by (function, arg), `queue_size` grew by exactly 1, and
`shutdown` and `thread_count` are unchanged. -/
theorem add_task_appends (s : State) (addrs : List Nat) (function arg hint : Nat)
    (hlive : queue_ok s addrs) (hshut : s.shutdown = 0)
    (hsize : s.queue_size < MAX_QUEUE) (hfun : function ≠ 0)
    (halloc : malloc s.heap hint ≠ 0) :
    ∃ s1, threadpool_add_task (some s) function arg hint = some (0, some s1) ∧
      queue_ok s1 (addrs ++ [malloc s.heap hint]) ∧
      contents s1.heap (addrs ++ [malloc s.heap hint])
        = contents s.heap addrs ++ [(function, arg)] ∧
      s1.queue_size = s.queue_size + 1 ∧ s1.shutdown = s.shutdown ∧
      s1.thread_count = s.thread_count := by
  obtain ⟨s1, h1, h2, h3, h4, h5, h6, _⟩ :=
    add_task_ok function arg hint hlive hshut hsize hfun halloc
  rw [(malloc_fresh halloc).1]
  exact ⟨s1, h1, h2, h3, h4, h5, h6⟩

theorem add_task_appends_witness :
    ∃ s1, threadpool_add_task (some pool_sample) 21 22 9 = some (0, some s1) ∧
      queue_ok s1 ([5] ++ [malloc pool_sample.heap 9]) ∧
      contents s1.heap ([5] ++ [malloc pool_sample.heap 9])
        = contents pool_sample.heap [5] ++ [(21, 22)] ∧
      s1.queue_size = pool_sample.queue_size + 1 ∧ s1.shutdown = pool_sample.shutdown ∧
      s1.thread_count = pool_sample.thread_count :=
  add_task_appends pool_sample [5] 21 22 9 (by decide) (by decide) (by decide) (by decide)
    (by decide)

/-- C2: a call for which one of the five rejecting conditions holds (pool
handle null, function null, shutdown set, `queue_size >= MAX_QUEUE`, task
allocation failed) returns -1 and leaves the pool memory exactly as it was;
a call returns 0 only when none of the five holds, and no call returns
anything but 0 or -1. -/
theorem add_task_failure_side_effect_free (pool : Option State)
    (function arg hint : Nat) :
    (add_task_rejects pool function hint →
      threadpool_add_task pool function arg hint = some (-1, pool)) ∧
    (∀ r, threadpool_add_task pool function arg hint = some r →
      (r.1 = 0 → ¬ add_task_rejects pool function hint) ∧ (r.1 = 0 ∨ r.1 = -1)) := by
  refine ⟨add_task_rejected arg, fun r hr => ?_⟩
  by_cases hrej : add_task_rejects pool function hint
  · rw [add_task_rejected arg hrej] at hr
    simp only [Option.some.injEq] at hr
    rw [← hr]
    exact ⟨fun h => absurd h (by simp), Or.inr rfl⟩
  · refine ⟨fun _ => hrej, ?_⟩
    cases pool with
    | none => exact absurd trivial hrej
    | some s =>
      simp only [add_task_rejects, not_or, not_not] at hrej
      obtain ⟨h1, h2, h3, h4⟩ := hrej
      by_cases hhead : s.queue_head = 0
      · rw [add_task_eq_empty function arg hint h2 h3 h1 h4 hhead] at hr
        simp only [Option.some.injEq] at hr
        rw [← hr]; exact Or.inl rfl
      · cases ht : s.heap s.queue_tail with
        | some t =>
          rw [add_task_eq_linked function arg hint h2 h3 h1 h4 hhead ht] at hr
          simp only [Option.some.injEq] at hr
          rw [← hr]; exact Or.inl rfl
        | none =>
          obtain ⟨hm, hnone, hm0⟩ := malloc_fresh h4
          unfold threadpool_add_task at hr
          simp only [] at hr
          rw [if_neg h1, if_neg (not_not.2 h2), if_neg h3, hm, if_neg hm0, if_neg hhead] at hr
          by_cases htl : s.queue_tail = hint
          · rw [htl, Function.update_same] at hr
            simp only [Option.some.injEq] at hr
            rw [← hr]; exact Or.inl rfl
          · rw [Function.update_noteq htl, ht] at hr
            simp at hr

theorem add_task_failure_side_effect_free_witness :
    threadpool_add_task (some (destroy_signal pool_sample)) 21 22 9
        = some (-1, some (destroy_signal pool_sample)) ∧
      ∀ r, threadpool_add_task (some pool_sample) 21 22 9 = some r →
        (r.1 = 0 → ¬ add_task_rejects (some pool_sample) 21 9) ∧ (r.1 = 0 ∨ r.1 = -1) :=
  ⟨(add_task_failure_side_effect_free (some (destroy_signal pool_sample)) 21 22 9).1
      (by decide),
    (add_task_failure_side_effect_free (some pool_sample) 21 22 9).2⟩

theorem create_one : threadpool_create env_all_ok 1 = (some pool_one, trace_one) := rfl

theorem dequeued_nil_mem {o : List Obs} (h : dequeued o = []) (t f x : Nat) :
    Obs.dequeue t f x ∉ o := by
  intro hm
  have : (f, x) ∈ dequeued o := by
    simp only [dequeued, List.mem_filterMap]
    exact ⟨_, hm, rfl⟩
  rw [h] at this
  exact absurd this (by simp)

/-- C3: in every run of `threadpool_add_task` calls and worker steps from a
freshly created pool, the tasks dequeued so far are a prefix of the
successfully submitted tasks, and followed by the tasks now queued (head
first) they are exactly the submitted tasks in submission order.  With a
single worker the execution log is a prefix of the dequeue order, and it is
the whole submission sequence once nothing is queued or held. -/
theorem fifo_dequeue_order (env : create_env) (thread_count : Int) (s : State)
    (tr : List Effect) (es : List Event)
    (hcreate : threadpool_create env thread_count = (some s, tr)) :
    ∃ sys h, run (boot s) es = some (sys, h) ∧
      dequeued h <+: submitted h ∧
      (sys.freed = false → ∃ addrs, queue_ok sys.mem addrs ∧
        dequeued h ++ contents sys.mem.heap addrs = submitted h) ∧
      (thread_count = 1 →
        calls h <+: dequeued h ∧
        (sys.freed = false → sys.mem.queue_size = 0 → held_exec sys.workers = [] →
          calls h = submitted h)) := by
  obtain ⟨_, _, htc, _⟩ := create_some hcreate
  obtain ⟨sys, h, hrun, hgood, hlen⟩ := run_good es (boot s) [] (boot_good hcreate)
  simp only [List.nil_append] at hgood
  have hone : thread_count = 1 → sys.workers.length ≤ 1 := by
    intro h1
    rw [hlen]
    simp [boot, htc, h1]
  refine ⟨sys, h, hrun, ?_⟩
  rcases hgood with ⟨hfreed, addrs, hinv⟩ | ⟨hfreed, hfin⟩
  · refine ⟨⟨_, hinv.fifo⟩, fun _ => ⟨addrs, hinv.queue, hinv.fifo⟩, fun h1 => ?_⟩
    have hord := hinv.order (hone h1)
    refine ⟨⟨_, hord⟩, fun _ hsize hex => ?_⟩
    have hnil : addrs = [] := by
      have := hinv.queue.size
      rw [hsize] at this
      exact List.length_eq_zero.1 (by exact_mod_cast this.symm)
    have hfifo := hinv.fifo
    rw [hex] at hord
    rw [hnil] at hfifo
    simpa [contents] using hord.trans (by simpa [contents] using hfifo)
  · refine ⟨⟨_, hfin.fifo⟩, fun hf => by rw [hfreed] at hf; exact absurd hf (by simp),
      fun h1 => ?_⟩
    refine ⟨?_, fun hf => by rw [hfreed] at hf; exact absurd hf (by simp)⟩
    rw [hfin.order (hone h1)]

theorem fifo_dequeue_order_witness :
    ∃ sys h, run (boot pool_one) abc_events = some (sys, h) ∧
      dequeued h <+: submitted h ∧
      (sys.freed = false → ∃ addrs, queue_ok sys.mem addrs ∧
        dequeued h ++ contents sys.mem.heap addrs = submitted h) ∧
      ((1 : Int) = 1 →
        calls h <+: dequeued h ∧
        (sys.freed = false → sys.mem.queue_size = 0 → held_exec sys.workers = [] →
          calls h = submitted h)) :=
  fifo_dequeue_order env_all_ok 1 pool_one trace_one abc_events create_one

/-- The log of the A, B, C run of one worker is [A, B, C]. -/
theorem abc_log :
    (run (boot pool_one) abc_events).map (fun r => (r.1.freed, submitted r.2, calls r.2))
      = some (true, [(1, 10), (2, 20), (3, 30)], [(1, 10), (2, 20), (3, 30)]) := by
  decide

/-- C5: in every state reached from `threadpool_create` by calls of
`threadpool_add_task` and worker steps (and before the pool is released),
`0 <= queue_size <= MAX_QUEUE`, `queue_size` is the number of nodes linked
from `queue_head`, `queue_head` is null exactly when `queue_size` is 0,
`queue_tail` is null exactly when `queue_head` is null, and a worker that
leaves its wait loop with shutdown false dequeues a live non-null task. -/
theorem queue_invariant (env : create_env) (thread_count : Int) (s : State)
    (tr : List Effect) (es : List Event)
    (hcreate : threadpool_create env thread_count = (some s, tr)) :
    ∃ sys h, run (boot s) es = some (sys, h) ∧
      (sys.freed = false → ∃ addrs, queue_ok sys.mem addrs ∧
        0 ≤ sys.mem.queue_size ∧ sys.mem.queue_size ≤ MAX_QUEUE ∧
        sys.mem.queue_size = addrs.length ∧
        (sys.mem.queue_head = 0 ↔ sys.mem.queue_size = 0) ∧
        (sys.mem.queue_tail = 0 ↔ sys.mem.queue_head = 0) ∧
        (sys.mem.shutdown = 0 → sys.mem.queue_size ≠ 0 →
          ∃ s1 task, worker_lock_section sys.mem = some (s1, worker_pc.executing task) ∧
            task ≠ 0 ∧ sys.mem.heap task ≠ none ∧ task = sys.mem.queue_head ∧
            s1.queue_size = sys.mem.queue_size - 1)) := by
  obtain ⟨sys, h, hrun, hgood, _⟩ := run_good es (boot s) [] (boot_good hcreate)
  refine ⟨sys, h, hrun, fun hf => ?_⟩
  rcases hgood with ⟨_, addrs, hinv⟩ | ⟨hfreed, _⟩
  swap
  · rw [hfreed] at hf; exact absurd hf (by simp)
  have hq := hinv.queue
  have hhead := chain_head_zero hq.linked
  have hlen0 : sys.mem.queue_size = 0 ↔ addrs = [] := by
    rw [hq.size]
    exact ⟨fun h0 => List.length_eq_zero.1 (by exact_mod_cast h0), fun h0 => by simp [h0]⟩
  refine ⟨addrs, hq, by rw [hq.size]; exact Int.natCast_nonneg _, by rw [hq.size]; exact hq.bound,
    hq.size, hhead.trans hlen0.symm, ?_, ?_⟩
  · rw [hq.tail, hhead]
    constructor
    · intro h0
      by_contra hne
      exact (chain_live hq.linked _ (queue_last_mem addrs hne)).1 h0
    · intro h0; rw [h0]; rfl
  · intro hshut hsize
    rcases lock_section_cases hq with ⟨h0, _, _⟩ | ⟨h0, _⟩ |
      ⟨_, _, a, as, t, s1, _, ha, ht, hp, hw, _, _, _, _, hsz⟩
    · exact absurd h0 hsize
    · exact absurd hshut h0
    · exact ⟨s1, a, hw, ha, by rw [ht]; simp, hp.symm, hsz⟩

theorem queue_invariant_witness :
    ∃ sys h, run (boot pool_one) pending_events = some (sys, h) ∧
      (sys.freed = false → ∃ addrs, queue_ok sys.mem addrs ∧
        0 ≤ sys.mem.queue_size ∧ sys.mem.queue_size ≤ MAX_QUEUE ∧
        sys.mem.queue_size = addrs.length ∧
        (sys.mem.queue_head = 0 ↔ sys.mem.queue_size = 0) ∧
        (sys.mem.queue_tail = 0 ↔ sys.mem.queue_head = 0) ∧
        (sys.mem.shutdown = 0 → sys.mem.queue_size ≠ 0 →
          ∃ s1 task, worker_lock_section sys.mem = some (s1, worker_pc.executing task) ∧
            task ≠ 0 ∧ sys.mem.heap task ≠ none ∧ task = sys.mem.queue_head ∧
            s1.queue_size = sys.mem.queue_size - 1)) :=
  queue_invariant env_all_ok 1 pool_one trace_one pending_events create_one

/-- C6: once `shutdown` is set, every call of `threadpool_add_task` returns
-1 and leaves the memory as it is; `threadpool_destroy` sets the flag; and
from every reachable state with the flag set, every further run keeps the
flag set, submits nothing, and leaves the queue the same list of nodes
until the pool is released. -/
theorem shutdown_one_way (env : create_env) (thread_count : Int) (s : State)
    (tr : List Effect) (es1 es2 : List Event)
    (hcreate : threadpool_create env thread_count = (some s, tr)) :
    (∀ st function arg hint, st.shutdown ≠ 0 →
      threadpool_add_task (some st) function arg hint = some (-1, some st)) ∧
    (∀ st, (destroy_signal st).shutdown ≠ 0) ∧
    ∃ sys1 h1, run (boot s) es1 = some (sys1, h1) ∧
      ∃ sys2 h2, run sys1 es2 = some (sys2, h2) ∧
        (sys1.mem.shutdown ≠ 0 →
          sys2.mem.shutdown ≠ 0 ∧ submitted h2 = [] ∧
          ∀ addrs, sys1.freed = false → queue_ok sys1.mem addrs →
            sys2.freed = false → queue_ok sys2.mem addrs) := by
  refine ⟨fun st f a hint hs => add_task_rejected a (Or.inr (Or.inl hs)),
    fun st => by simp [destroy_signal], ?_⟩
  obtain ⟨sys1, h1, hrun1, hgood, _⟩ := run_good es1 (boot s) [] (boot_good hcreate)
  refine ⟨sys1, h1, hrun1, ?_⟩
  rcases hgood with ⟨hfreed, addrs, hinv⟩ | ⟨hfreed, _⟩
  · by_cases hshut : sys1.mem.shutdown ≠ 0
    · obtain ⟨sys2, h2, hrun2, hs2, hsub, _, _, hinv2, _⟩ :=
        run_frozen es2 sys1 _ addrs hinv hfreed hshut
      refine ⟨sys2, h2, hrun2, fun _ => ⟨hs2, hsub, fun addrs1 _ hq hf2 => ?_⟩⟩
      rw [chain_unique hq.linked hinv.queue.linked]
      exact (hinv2 hf2).queue
    · obtain ⟨sys2, h2, hrun2, _, _⟩ := run_good es2 sys1 _ (Or.inl ⟨hfreed, addrs, hinv⟩)
      exact ⟨sys2, h2, hrun2, fun hs => absurd hs hshut⟩
  · refine ⟨sys1, [], run_freed hfreed es2, fun hs => ⟨hs, rfl, fun _ hf => ?_⟩⟩
    rw [hfreed] at hf; exact absurd hf (by simp)

theorem shutdown_one_way_witness :
    (∀ st function arg hint, st.shutdown ≠ 0 →
      threadpool_add_task (some st) function arg hint = some (-1, some st)) ∧
    (∀ st, (destroy_signal st).shutdown ≠ 0) ∧
    ∃ sys1 h1, run (boot pool_one) pending_events = some (sys1, h1) ∧
      ∃ sys2 h2, run sys1 pending_rest = some (sys2, h2) ∧
        (sys1.mem.shutdown ≠ 0 →
          sys2.mem.shutdown ≠ 0 ∧ submitted h2 = [] ∧
          ∀ addrs, sys1.freed = false → queue_ok sys1.mem addrs →
            sys2.freed = false → queue_ok sys2.mem addrs) :=
  shutdown_one_way env_all_ok 1 pool_one trace_one pending_events pending_rest create_one

/-- C7: for `thread_count <= 0` or `> MAX_THREADS` the call returns `NULL`
and its only effect is the error log (no allocation, no spawn); for
`1 <= thread_count <= MAX_THREADS`, when every allocation, initialisation
and spawn succeeds, it returns a pool with that `thread_count`, an empty
queue (`queue_size` 0, head and tail null) and `shutdown` false. -/
theorem create_validates (env : create_env) (thread_count : Int) :
    ((thread_count ≤ 0 ∨ thread_count > MAX_THREADS) →
      threadpool_create env thread_count = (none, [Effect.syslog_err])) ∧
    (1 ≤ thread_count → thread_count ≤ MAX_THREADS → env_ok env thread_count.toNat →
      ∃ s tr, threadpool_create env thread_count = (some s, tr) ∧
        s.thread_count = thread_count ∧ s.queue_size = 0 ∧ s.queue_head = 0 ∧
        s.queue_tail = 0 ∧ s.shutdown = 0) := by
  refine ⟨create_invalid env thread_count, fun h1 h2 henv => ?_⟩
  obtain ⟨s, tr, hc⟩ := create_ok (by omega) h2 henv
  obtain ⟨_, _, g1, g2, g3, g4, g5, _⟩ := create_some hc
  exact ⟨s, tr, hc, g1, g2, g3, g4, g5⟩

theorem create_validates_witness :
    threadpool_create env_all_ok 11 = (none, [Effect.syslog_err]) ∧
    ∃ s tr, threadpool_create env_all_ok 4 = (some s, tr) ∧
      s.thread_count = 4 ∧ s.queue_size = 0 ∧ s.queue_head = 0 ∧
      s.queue_tail = 0 ∧ s.shutdown = 0 :=
  ⟨(create_validates env_all_ok 11).1 (by decide),
    (create_validates env_all_ok 4).2 (by decide) (by decide)
      ⟨rfl, rfl, rfl, rfl, fun i _ => by simp [env_all_ok]⟩⟩

/-- C8: a worker step taken with `shutdown` set exits and leaves the memory
as it is, whatever the queue holds; the clean-up loop of
`threadpool_destroy` on a well-formed queue frees exactly the queued nodes
and leaves `queue_head` null; and from every reachable state with the flag
set, no node queued at that moment is ever dequeued or called in any further
run, and all of them are discarded when the pool is released. -/
theorem drain_without_execution (env : create_env) (thread_count : Int) (s : State)
    (tr : List Effect) (es1 es2 : List Event)
    (hcreate : threadpool_create env thread_count = (some s, tr)) :
    (∀ st, st.shutdown ≠ 0 → worker_lock_section st = some (st, worker_pc.exited)) ∧
    (∀ st addrs fuel, queue_ok st addrs → addrs.length < fuel →
      ∃ st1, destroy_drain fuel st = some (st1, addrs) ∧ st1.queue_head = 0 ∧
        ∀ a ∈ addrs, st1.heap a = none) ∧
    ∃ sys1 h1, run (boot s) es1 = some (sys1, h1) ∧
      ∃ sys2 h2, run sys1 es2 = some (sys2, h2) ∧
        ∀ addrs, sys1.freed = false → sys1.mem.shutdown ≠ 0 → queue_ok sys1.mem addrs →
          (∀ t ∈ addrs, ∀ f x, Obs.call t f x ∉ h2 ∧ Obs.dequeue t f x ∉ h2) ∧
          dequeued h2 = [] ∧
          (sys2.freed = true → sys2.mem.queue_head = 0 ∧
            (discarded h2).length = addrs.length) := by
  refine ⟨fun st hs => ?_, fun st addrs fuel hq hf => ?_, ?_⟩
  · unfold worker_lock_section
    rw [if_neg (fun h => hs h.2), if_pos hs]
  · obtain ⟨st1, g1, g2, g3, _⟩ := drain_ok addrs st fuel hq.linked hq.nodup hf
    exact ⟨st1, g1, g2, g3⟩
  obtain ⟨sys1, h1, hrun1, hgood, _⟩ := run_good es1 (boot s) [] (boot_good hcreate)
  refine ⟨sys1, h1, hrun1, ?_⟩
  rcases hgood with ⟨hfreed, addrs, hinv⟩ | ⟨hfreed, _⟩
  · by_cases hshut : sys1.mem.shutdown ≠ 0
    · obtain ⟨sys2, h2, hrun2, _, _, hdeq, hcall, _, hfin⟩ :=
        run_frozen es2 sys1 _ addrs hinv hfreed hshut
      refine ⟨sys2, h2, hrun2, fun addrs1 _ _ hq => ?_⟩
      rw [chain_unique hq.linked hinv.queue.linked]
      refine ⟨fun t ht f x => ⟨fun hm => hcall t f x hm ht, dequeued_nil_mem hdeq t f x⟩,
        hdeq, fun hf2 => ⟨(hfin hf2).2.2, (hfin hf2).2.1⟩⟩
    · obtain ⟨sys2, h2, hrun2, _, _⟩ := run_good es2 sys1 _ (Or.inl ⟨hfreed, addrs, hinv⟩)
      exact ⟨sys2, h2, hrun2, fun _ _ hs => absurd hs hshut⟩
  · refine ⟨sys1, [], run_freed hfreed es2, fun _ hf => ?_⟩
    rw [hfreed] at hf; exact absurd hf (by simp)

theorem drain_without_execution_witness :
    (∀ st, st.shutdown ≠ 0 → worker_lock_section st = some (st, worker_pc.exited)) ∧
    (∀ st addrs fuel, queue_ok st addrs → addrs.length < fuel →
      ∃ st1, destroy_drain fuel st = some (st1, addrs) ∧ st1.queue_head = 0 ∧
        ∀ a ∈ addrs, st1.heap a = none) ∧
    ∃ sys1 h1, run (boot pool_one) pending_events = some (sys1, h1) ∧
      ∃ sys2 h2, run sys1 pending_rest = some (sys2, h2) ∧
        ∀ addrs, sys1.freed = false → sys1.mem.shutdown ≠ 0 → queue_ok sys1.mem addrs →
          (∀ t ∈ addrs, ∀ f x, Obs.call t f x ∉ h2 ∧ Obs.dequeue t f x ∉ h2) ∧
          dequeued h2 = [] ∧
          (sys2.freed = true → sys2.mem.queue_head = 0 ∧
            (discarded h2).length = addrs.length) :=
  drain_without_execution env_all_ok 1 pool_one trace_one pending_events pending_rest
    create_one

/-- In the run of `pending_events` and `pending_rest` the task B, queued
when the flag is set, is discarded and never called: the log is [A]. -/
theorem pending_log :
    (run (boot pool_one) (pending_events ++ pending_rest)).map
        (fun r => (r.1.freed, submitted r.2, calls r.2, discarded r.2))
      = some (true, [(1, 10), (2, 20)], [(1, 10)], [(2, 20)]) := by
  decide

/-- C9 (the code at a failing input): with three workers asked for and the
spawn of worker 1 failing, `threadpool_create` returns `NULL` after
`threadpool_destroy` joined `threads[0]`, the one handle written by a spawn,
and also `threads[1]` and `threads[2]`, which no spawn has written. -/
theorem create_spawn_failure_joins_all :
    threadpool_create env_spawn_fail 3 =
      (none,
        [Effect.malloc_pool true, Effect.malloc_threads true, Effect.mutex_init 0,
         Effect.cond_init 0, Effect.pthread_create 0 (some 100),
         Effect.pthread_create 1 none, Effect.syslog_err, Effect.cond_broadcast,
         Effect.pthread_join (some 100), Effect.pthread_join none,
         Effect.pthread_join none, Effect.mutex_destroy, Effect.cond_destroy,
         Effect.free_threads, Effect.free_pool, Effect.syslog_info]) := rfl

theorem joined_append (t1 t2 : List Effect) : joined (t1 ++ t2) = joined t1 ++ joined t2 := by
  simp [joined]

theorem joined_map (l : List (Option Nat)) : joined (l.map Effect.pthread_join) = l := by
  induction l with
  | nil => rfl
  | cons a l ih =>
    simp only [List.map_cons, joined, List.filterMap_cons] at ih ⊢
    rw [ih]

/-- The spawn loop when the spawn of worker `i` is the first to fail: the
slots below `i` hold the new handles, the slots from `i` on are untouched. -/
theorem spawn_loop_fail (pc : Nat → Option Nat) (i : Nat) (hfail : pc i = none) :
    ∀ (k i0 : Nat) (threads : List (Option Nat)), i0 ≤ i → i < i0 + k →
    (∀ j, i0 ≤ j → j < i → pc j ≠ none) →
    ∃ thr eff, spawn_loop pc k i0 threads = (some i, thr, eff) ∧ joined eff = [] ∧
      (∀ j, i ≤ j → thr.getD j none = threads.getD j none) ∧
      (∀ j, j < i0 → thr.getD j none = threads.getD j none) ∧
      (∀ j, i0 ≤ j → j < i → j < threads.length → thr.getD j none = pc j)
  | 0, i0, threads, h1, h2, _ => by omega
  | k + 1, i0, threads, h1, h2, hok => by
    by_cases he : i0 = i
    · subst he
      refine ⟨threads, [Effect.pthread_create i0 none], ?_, rfl, fun _ _ => rfl,
        fun _ _ => rfl, fun j hj1 hj2 => by omega⟩
      simp only [spawn_loop, hfail]
    · obtain ⟨hd, hhd⟩ := Option.ne_none_iff_exists'.1 (hok i0 (le_refl _) (by omega))
      obtain ⟨thr, eff, hs, hj, g1, g2, g3⟩ :=
        spawn_loop_fail pc i hfail k (i0 + 1) (threads.set i0 (some hd)) (by omega) (by omega)
          (fun j hj1 hj2 => hok j (by omega) hj2)
      refine ⟨thr, Effect.pthread_create i0 (some hd) :: eff, ?_, ?_, ?_, ?_, ?_⟩
      · simp only [spawn_loop, hhd, hs]
      · simpa only [joined, List.filterMap_cons] using hj
      · intro j hj1
        rw [g1 j hj1]
        simp only [List.getD_eq_getElem?_getD]
        rw [List.getElem?_set_ne (by omega)]
      · intro j hj1
        rw [g2 j (by omega)]
        simp only [List.getD_eq_getElem?_getD]
        rw [List.getElem?_set_ne (by omega)]
      · intro j hj1 hj2 hj3
        by_cases hji : j = i0
        · subst hji
          rw [g2 j (by omega)]
          simp only [List.getD_eq_getElem?_getD]
          rw [List.getElem?_set_self hj3, hhd]; rfl
        · rw [g3 j (by omega) hj2 (by simpa using hj3)]

/-- What the code does on a partial spawn failure, for every argument in
range and every first failing index `i`: it returns `NULL` after joining all
`thread_count` slots, the `i` handles written by a spawn and then the
`thread_count - i` slots that no spawn has written. -/
theorem create_spawn_failure_joins (env : create_env) (thread_count : Int) (i : Nat)
    (h1 : 0 < thread_count) (h2 : thread_count ≤ MAX_THREADS)
    (hpool : env.malloc_pool = true) (hthreads : env.malloc_threads = true)
    (hmutex : env.mutex_init = 0) (hcond : env.cond_init = 0)
    (hi : i < thread_count.toNat) (hok : ∀ j, j < i → env.pthread_create j ≠ none)
    (hfail : env.pthread_create i = none) :
    ∃ tr, threadpool_create env thread_count = (none, tr) ∧
      joined tr = (List.range thread_count.toNat).map
        (fun j => if j < i then env.pthread_create j else none) := by
  obtain ⟨thr, eff, hs, hj, g1, _, g3⟩ :=
    spawn_loop_fail env.pthread_create i hfail thread_count.toNat 0
      (List.replicate thread_count.toNat none) (Nat.zero_le _) (by omega)
      (fun j _ hj2 => hok j hj2)
  unfold threadpool_create
  rw [if_neg (by simp only [not_or, not_le, gt_iff_lt, not_lt]; exact ⟨h1, h2⟩),
    if_neg (by simp [hpool]), if_neg (by simp [hthreads])]
  simp only []
  rw [if_neg (not_not.2 hmutex), if_neg (not_not.2 hcond), hs]
  simp only [threadpool_destroy, destroy_signal, destroy_drain, ne_eq, not_true_eq_false,
    if_false, List.map_nil, List.append_nil]
  refine ⟨_, rfl, ?_⟩
  simp only [joined_append, hj, destroy_join, joined_map]
  simp only [joined, List.filterMap_cons, List.filterMap_nil, List.nil_append,
    List.append_nil]
  apply List.map_congr_left
  intro j hj1
  have hjn : j < thread_count.toNat := List.mem_range.1 hj1
  by_cases hji : j < i
  · rw [if_pos hji, g3 j (Nat.zero_le _) hji (by simpa using hjn)]
  · rw [if_neg hji, g1 j (by omega)]
    simp [List.getD_eq_getElem?_getD, hjn]

theorem create_spawn_failure_joins_witness :
    ∃ tr, threadpool_create env_spawn_fail 3 = (none, tr) ∧
      joined tr = (List.range (3 : Int).toNat).map
        (fun j => if j < 1 then env_spawn_fail.pthread_create j else none) :=
  create_spawn_failure_joins env_spawn_fail 3 1 (by decide) (by decide) rfl rfl rfl rfl
    (by decide) (fun j hj => by
      have : j = 0 := by omega
      subst this
      simp [env_spawn_fail]) rfl

/-- Submissions that all find room and a free address all succeed and are
appended in order. -/
theorem submit_all_ok : ∀ (reqs : List (Nat × Nat × Nat)) (s : State) (addrs : List Nat),
    queue_ok s addrs → s.shutdown = 0 →
    ((addrs.length + reqs.length : Nat) : Int) ≤ MAX_QUEUE →
    (∀ r ∈ reqs, r.1 ≠ 0) → (∀ r ∈ reqs, s.heap r.2.2 = none ∧ r.2.2 ≠ 0) →
    (reqs.map (fun r => r.2.2)).Nodup →
    ∃ s1, submit_all s reqs = some (List.replicate reqs.length 0, s1) ∧
      queue_ok s1 (addrs ++ reqs.map (fun r => r.2.2)) ∧
      contents s1.heap (addrs ++ reqs.map (fun r => r.2.2))
        = contents s.heap addrs ++ reqs.map (fun r => (r.1, r.2.1)) ∧
      s1.shutdown = 0
  | [], s, addrs, hq, hs, _, _, _, _ => ⟨s, rfl, by simpa using hq, by simp, hs⟩
  | (f, a, hint) :: rest, s, addrs, hq, hs, hlen, hfun, hfresh, hnd => by
    obtain ⟨hnone, hint0⟩ := hfresh (f, a, hint) (List.mem_cons_self _ _)
    simp only at hnone hint0
    have hm : malloc s.heap hint = hint := by unfold malloc; rw [if_pos hnone]
    have halloc : malloc s.heap hint ≠ 0 := by rw [hm]; exact hint0
    have hsize : s.queue_size < MAX_QUEUE := by
      rw [hq.size]
      simp only [List.length_cons] at hlen
      push_cast at hlen ⊢
      omega
    obtain ⟨s1, hcall, hq1, hc1, _, hs1, _, _, hframe, _⟩ :=
      add_task_ok f a hint hq hs hsize (hfun (f, a, hint) (List.mem_cons_self _ _)) halloc
    simp only [List.map_cons, List.nodup_cons, List.mem_map, not_exists, not_and] at hnd
    have hfresh1 : ∀ r ∈ rest, s1.heap r.2.2 = none ∧ r.2.2 ≠ 0 := by
      intro r hr
      obtain ⟨g1, g2⟩ := hfresh r (List.mem_cons_of_mem _ hr)
      refine ⟨?_, g2⟩
      rw [hframe r.2.2 (fun e => hnd.1 r hr e)
        (fun e => (chain_live hq.linked _ e).2 g1)]
      exact g1
    obtain ⟨s2, hrest, hq2, hc2, hs2⟩ :=
      submit_all_ok rest s1 (addrs ++ [hint]) hq1 (hs1.trans hs)
        (by simp only [List.length_append, List.length_cons, List.length_nil] at hlen ⊢
            push_cast at hlen ⊢; omega)
        (fun r hr => hfun r (List.mem_cons_of_mem _ hr)) hfresh1 hnd.2
    refine ⟨s2, ?_, ?_, ?_, hs2⟩
    · simp only [submit_all, hcall, hrest, List.length_cons, List.replicate_succ]
    · simpa [List.append_assoc] using hq2
    · simp only [List.map_cons]
      rw [show addrs ++ hint :: rest.map (fun r => r.2.2)
          = (addrs ++ [hint]) ++ rest.map (fun r => r.2.2) by simp, hc2, hc1]
      simp

/-- C4: starting from a live pool (shutdown false) whose queue is empty, with
no worker step in between and every task allocation succeeding (the hints
are distinct free addresses), `MAX_QUEUE` calls of `threadpool_add_task`
with non-null functions all return 0, and one more call (whatever its
function) returns -1 and leaves exactly `MAX_QUEUE` tasks queued, the ones
submitted, in order. -/
theorem capacity_enforced (s : State) (reqs : List (Nat × Nat × Nat))
    (function arg hint : Nat)
    (hempty : queue_ok s []) (hshut : s.shutdown = 0)
    (hlen : (reqs.length : Int) = MAX_QUEUE)
    (hfun : ∀ r ∈ reqs, r.1 ≠ 0)
    (hfresh : ∀ r ∈ reqs, s.heap r.2.2 = none ∧ r.2.2 ≠ 0)
    (hnodup : (reqs.map (fun r => r.2.2)).Nodup) :
    ∃ s1, submit_all s reqs = some (List.replicate reqs.length 0, s1) ∧
      threadpool_add_task (some s1) function arg hint = some (-1, some s1) ∧
      ∃ addrs, queue_ok s1 addrs ∧ (addrs.length : Int) = MAX_QUEUE ∧
        s1.queue_size = MAX_QUEUE ∧
        contents s1.heap addrs = reqs.map (fun r => (r.1, r.2.1)) := by
  obtain ⟨s1, hsub, hq, hc, _⟩ :=
    submit_all_ok reqs s [] hempty hshut (by simpa using hlen.le) hfun hfresh hnodup
  simp only [List.nil_append, contents, List.filterMap_nil] at hq hc
  have hl : ((reqs.map (fun r => r.2.2)).length : Int) = MAX_QUEUE := by
    simpa using hlen
  have hsize : s1.queue_size = MAX_QUEUE := hq.size.trans hl
  refine ⟨s1, hsub, ?_, _, hq, hl, hsize, hc⟩
  exact add_task_rejected arg (Or.inr (Or.inr (Or.inl hsize.ge)))

theorem capacity_enforced_witness :
    ∃ s1, submit_all pool_one ((List.range 256).map (fun k => (7, k, k + 1)))
        = some (List.replicate ((List.range 256).map (fun k => (7, k, k + 1))).length 0, s1) ∧
      threadpool_add_task (some s1) 7 256 257 = some (-1, some s1) ∧
      ∃ addrs, queue_ok s1 addrs ∧ (addrs.length : Int) = MAX_QUEUE ∧
        s1.queue_size = MAX_QUEUE ∧
        contents s1.heap addrs
          = ((List.range 256).map (fun k => (7, k, k + 1))).map (fun r => (r.1, r.2.1)) :=
  capacity_enforced pool_one ((List.range 256).map (fun k => (7, k, k + 1))) 7 256 257
    (by decide) rfl (by simp [MAX_QUEUE]) (by simp) (by simp [pool_one])
    (by
      rw [List.map_map]
      exact (List.nodup_range 256).map (fun a b h => by simpa using h))

/-! ## The completion count -/

theorem create_four : threadpool_create env_all_ok 4 = (some pool_four, trace_four) := rfl

theorem queue_state_zero : queue_state 0 0 = pool_four := by
  simp only [queue_state, pool_four, State.mk.injEq, true_and]
  refine ⟨by simp, by simp, by simp, ?_⟩
  funext a
  rw [if_neg (by omega)]

theorem queue_state_add (lo hi : Nat) (h1 : lo ≤ hi) (h2 : hi < lo + 256) :
    threadpool_add_task (some (queue_state lo hi)) 7 0 (hi + 1)
      = some (0, some (queue_state lo (hi + 1))) := by
  have hm : malloc (queue_state lo hi).heap (hi + 1) ≠ 0 := by
    simp [malloc, queue_state]
  have hsz : ¬ (queue_state lo hi).queue_size ≥ MAX_QUEUE := by
    simp only [queue_state, MAX_QUEUE]; omega
  have hw : int_wrap (((hi - lo : Nat) : Int) + 1) = ((hi + 1 - lo : Nat) : Int) := by
    rw [int_wrap_eq] <;> omega
  have hlt1 : lo < hi + 1 := by omega
  by_cases hlt : lo < hi
  · have ht : (queue_state lo hi).heap (queue_state lo hi).queue_tail = some ⟨7, 0, 0⟩ := by
      simp only [queue_state]
      rw [if_pos hlt, if_pos ⟨hlt, le_refl _⟩, if_pos rfl]
    rw [add_task_eq_linked 7 0 (hi + 1) rfl hsz (by decide) hm (by simp [queue_state, hlt]) ht]
    simp only [queue_state, hlt, hlt1, if_true, hw, Option.some.injEq, Prod.mk.injEq, true_and,
      State.mk.injEq]
    funext a
    by_cases e1 : a = hi
    · subst e1
      rw [Function.update_same, if_pos ⟨hlt, by omega⟩, if_neg (by omega)]
    · rw [Function.update_noteq e1]
      by_cases e2 : a = hi + 1
      · subst e2
        rw [Function.update_same, if_pos ⟨hlt1, le_refl _⟩, if_pos rfl]
      · rw [Function.update_noteq e2, if_neg e1, if_neg e2]
        by_cases e3 : lo < a ∧ a ≤ hi
        · rw [if_pos e3, if_pos ⟨e3.1, by omega⟩]
        · rw [if_neg e3, if_neg (by omega)]
  · have he : hi = lo := by omega
    subst he
    rw [add_task_eq_empty 7 0 (hi + 1) rfl hsz (by decide) hm (by simp [queue_state])]
    simp only [queue_state, hw, hlt1, if_true, Option.some.injEq, Prod.mk.injEq, true_and,
      State.mk.injEq]
    funext a
    by_cases e2 : a = hi + 1
    · subst e2
      rw [Function.update_same, if_pos ⟨hlt1, le_refl _⟩, if_pos rfl]
    · rw [Function.update_noteq e2, if_neg (by omega), if_neg (by omega)]

theorem queue_state_lock (lo hi : Nat) (h1 : lo < hi) (h2 : hi ≤ lo + 256) :
    worker_lock_section (queue_state lo hi)
      = some (mid_state lo hi, worker_pc.executing (lo + 1)) := by
  have hsz : ¬ ((queue_state lo hi).queue_size = 0 ∧ (queue_state lo hi).shutdown = 0) := by
    simp only [queue_state]; omega
  have hw : int_wrap (((hi - lo : Nat) : Int) - 1) = ((hi - (lo + 1) : Nat) : Int) := by
    rw [int_wrap_eq] <;> omega
  have hhead : (queue_state lo hi).queue_head = lo + 1 := by
    simp only [queue_state]; rw [if_pos h1]
  have hnode : (queue_state lo hi).heap (lo + 1)
      = some ⟨7, 0, if lo + 1 = hi then 0 else lo + 1 + 1⟩ := by
    simp only [queue_state]; rw [if_pos ⟨by omega, h1⟩]
  unfold worker_lock_section
  simp only []
  rw [if_neg hsz, if_neg (by simp [queue_state]), hhead, if_pos (by omega), hnode]
  simp only [mid_state, queue_state, hw, Option.some.injEq, Prod.mk.injEq, and_true,
    State.mk.injEq, true_and]
  by_cases e : lo + 1 = hi
  · subst e; simp
  · have : lo + 1 < hi := by omega
    simp [e, this, h1]

theorem queue_state_free (lo hi : Nat) (h1 : lo < hi) :
    worker_free (mid_state lo hi) (lo + 1) = some (queue_state (lo + 1) hi) := by
  have hnode : (mid_state lo hi).heap (lo + 1)
      = some ⟨7, 0, if lo + 1 = hi then 0 else lo + 1 + 1⟩ := by
    simp only [mid_state, queue_state]; rw [if_pos ⟨by omega, h1⟩]
  unfold worker_free
  rw [if_pos (by omega), hnode]
  simp only [mid_state, queue_state, Option.some.injEq, State.mk.injEq, true_and]
  funext a
  by_cases e : a = lo + 1
  · subst e
    rw [Function.update_same, if_neg (by omega)]
  · rw [Function.update_noteq e]
    by_cases e3 : lo < a ∧ a ≤ hi
    · rw [if_pos e3, if_pos (show lo + 1 < a ∧ a ≤ hi from ⟨by omega, e3.2⟩)]
    · rw [if_neg e3, if_neg (show ¬ (lo + 1 < a ∧ a ≤ hi) by omega)]

/-- One round of worker 0 on a non-empty queue. -/
theorem queue_state_round (lo hi : Nat) (w1 w2 w3 : worker_pc) (h1 : lo < hi)
    (h2 : hi ≤ lo + 256) :
    run ⟨queue_state lo hi, [worker_pc.waiting, w1, w2, w3], false⟩
        [Event.worker_lock 0, Event.worker_call 0, Event.worker_free 0]
      = some (⟨queue_state (lo + 1) hi, [worker_pc.waiting, w1, w2, w3], false⟩,
          [Obs.dequeue (lo + 1) 7 0, Obs.call (lo + 1) 7 0]) := by
  have hnode : (queue_state lo hi).heap (lo + 1)
      = some ⟨7, 0, if lo + 1 = hi then 0 else lo + 1 + 1⟩ := by
    simp only [queue_state]; rw [if_pos ⟨by omega, h1⟩]
  have hcall : worker_call (mid_state lo hi) (lo + 1) = some (some (7, 0)) := by
    unfold worker_call
    rw [if_pos (by omega)]
    show (match (queue_state lo hi).heap (lo + 1) with
      | none => none
      | some t => some (some (t.function, t.arg))) = _
    rw [hnode]
  simp only [run, step, Bool.false_eq_true, if_false, List.getElem?_cons_zero,
    queue_state_lock lo hi h1 h2, hnode, List.set_cons_zero, hcall,
    queue_state_free lo hi h1, List.nil_append, List.append_nil, List.singleton_append]

theorem run_submit_ok (ws : List worker_pc) : ∀ (n k : Nat), k + n ≤ 256 →
    run ⟨queue_state 0 k, ws, false⟩ (submit_events k n)
      = some (⟨queue_state 0 (k + n), ws, false⟩, List.replicate n (Obs.add_task 7 0 0))
  | 0, k, _ => rfl
  | n + 1, k, h => by
    have ih := run_submit_ok ws n (k + 1) (by omega)
    have hk : k + 1 + n = k + (n + 1) := by omega
    rw [hk] at ih
    simp only [submit_events, run, step, Bool.false_eq_true, if_false,
      queue_state_add 0 k (Nat.zero_le _) (by omega), ih, List.replicate_succ,
      List.singleton_append]

theorem run_submit_full (ws : List worker_pc) : ∀ (n k : Nat),
    run ⟨queue_state 0 256, ws, false⟩ (submit_events k n)
      = some (⟨queue_state 0 256, ws, false⟩, List.replicate n (Obs.add_task 7 0 (-1)))
  | 0, _ => rfl
  | n + 1, k => by
    have hrej : threadpool_add_task (some (queue_state 0 256)) 7 0 (k + 1)
        = some (-1, some (queue_state 0 256)) :=
      add_task_rejected 0 (Or.inr (Or.inr (Or.inl (by simp [queue_state, MAX_QUEUE]))))
    simp only [submit_events, run, step, Bool.false_eq_true, if_false, hrej,
      run_submit_full ws n (k + 1), List.replicate_succ, List.singleton_append]

theorem run_drain (w1 w2 w3 : worker_pc) : ∀ (n j : Nat), j + n ≤ 256 →
    run ⟨queue_state j 256, [worker_pc.waiting, w1, w2, w3], false⟩ (drain_events n)
      = some (⟨queue_state (j + n) 256, [worker_pc.waiting, w1, w2, w3], false⟩,
          drain_obs j n)
  | 0, _, _ => rfl
  | n + 1, j, h => by
    have ih := run_drain w1 w2 w3 n (j + 1) (by omega)
    have hj : j + 1 + n = j + (n + 1) := by omega
    rw [hj] at ih
    have hround := queue_state_round j 256 w1 w2 w3 (by omega) (by omega)
    have := run_append ⟨queue_state j 256, [worker_pc.waiting, w1, w2, w3], false⟩
      [Event.worker_lock 0, Event.worker_call 0, Event.worker_free 0] (drain_events n)
    rw [hround] at this
    simp only [ih] at this
    exact this

theorem run_shutdown :
    run ⟨queue_state 256 256,
        [worker_pc.waiting, worker_pc.waiting, worker_pc.waiting, worker_pc.waiting], false⟩
        (Event.destroy_signal :: shutdown_events)
      = some (⟨destroy_signal (queue_state 256 256),
          [worker_pc.exited, worker_pc.exited, worker_pc.exited, worker_pc.exited], true⟩,
          []) := rfl

theorem returns_append (h o : List Obs) : returns (h ++ o) = returns h ++ returns o := by
  simp [returns]

theorem add_calls_append (es1 es2 : List Event) :
    add_calls (es1 ++ es2) = add_calls es1 + add_calls es2 := by
  simp [add_calls]

theorem add_calls_cons (e : Event) (es : List Event) :
    add_calls (e :: es) = add_calls [e] + add_calls es :=
  add_calls_append [e] es

theorem returns_discard (heap : Heap) : ∀ (l : List Nat),
    returns (l.filterMap (fun task =>
        (heap task).map (fun t => Obs.discard task t.function t.arg))) = []
  | [] => rfl
  | a :: l => by
    have ih := returns_discard heap l
    cases ha : heap a with
    | none => simpa only [List.filterMap_cons, ha, Option.map_none'] using ih
    | some t =>
      simp only [List.filterMap_cons, ha, Option.map_some']
      simpa only [returns, List.filterMap_cons] using ih

/-- Every call of `threadpool_add_task` on a pool that is not released
returns a value, and no other step does. -/
theorem step_returns {sys sys1 : System} {e : Event} {o : List Obs}
    (hf : sys.freed = false) (h : step sys e = some (sys1, o)) :
    (returns o).length = add_calls [e] := by
  obtain ⟨mem, ws, freed⟩ := sys
  simp only at hf
  subst hf
  cases e with
  | add_task f a hint =>
    simp only [step, Bool.false_eq_true, if_false] at h
    split at h
    · simp only [Option.some.injEq, Prod.mk.injEq] at h
      rw [← h.2]; rfl
    · simp at h
  | worker_lock i =>
    simp only [step, Bool.false_eq_true, if_false] at h
    split at h
    · split at h
      · simp at h
      · simp only [Option.some.injEq, Prod.mk.injEq] at h
        rw [← h.2]
        split <;> rfl
      · simp only [Option.some.injEq, Prod.mk.injEq] at h
        rw [← h.2]; rfl
    · simp only [Option.some.injEq, Prod.mk.injEq] at h
      rw [← h.2]; rfl
  | worker_call i =>
    simp only [step, Bool.false_eq_true, if_false] at h
    split at h
    · split at h
      · simp at h
      · simp only [Option.some.injEq, Prod.mk.injEq] at h
        rw [← h.2]; rfl
      · simp only [Option.some.injEq, Prod.mk.injEq] at h
        rw [← h.2]; rfl
    · simp only [Option.some.injEq, Prod.mk.injEq] at h
      rw [← h.2]; rfl
  | worker_free i =>
    simp only [step, Bool.false_eq_true, if_false] at h
    split at h
    · split at h
      · simp at h
      · simp only [Option.some.injEq, Prod.mk.injEq] at h
        rw [← h.2]; rfl
    · simp only [Option.some.injEq, Prod.mk.injEq] at h
      rw [← h.2]; rfl
  | destroy_signal =>
    simp only [step, Bool.false_eq_true, if_false, Option.some.injEq, Prod.mk.injEq] at h
    rw [← h.2]; rfl
  | destroy_finish =>
    simp only [step, Bool.false_eq_true, if_false] at h
    split at h
    · split at h
      · simp at h
      · simp only [Option.some.injEq, Prod.mk.injEq] at h
        rw [← h.2, returns_discard]; rfl
    · simp only [Option.some.injEq, Prod.mk.injEq] at h
      rw [← h.2]; rfl

theorem run_stays_freed : ∀ (es : List Event) (sys sys1 : System) (o : List Obs),
    run sys es = some (sys1, o) → sys.freed = true → sys1.freed = true := by
  intro es sys sys1 o h hf
  rw [run_freed hf es] at h
  simp only [Option.some.injEq, Prod.mk.injEq] at h
  rw [← h.1]; exact hf

/-- In a run that ends with the pool not released, every call of
`threadpool_add_task` has returned a value. -/
theorem run_returns : ∀ (es : List Event) (sys sys1 : System) (o : List Obs),
    run sys es = some (sys1, o) → sys1.freed = false →
    (returns o).length = add_calls es
  | [], sys, sys1, o, h, _ => by
    simp only [run, Option.some.injEq, Prod.mk.injEq] at h
    rw [← h.2]; rfl
  | e :: es, sys, sys1, o, h, hf1 => by
    rw [run_cons] at h
    cases hs : step sys e with
    | none => rw [hs] at h; simp at h
    | some r =>
      obtain ⟨sys2, o2⟩ := r
      rw [hs] at h
      simp only [] at h
      cases hr : run sys2 es with
      | none => rw [hr] at h; simp at h
      | some r3 =>
        obtain ⟨sys3, o3⟩ := r3
        rw [hr] at h
        simp only [Option.some.injEq, Prod.mk.injEq] at h
        have hf3 : sys3.freed = false := by rw [h.1]; exact hf1
        have hf2 : sys2.freed = false := by
          cases hx : sys2.freed with
          | false => rfl
          | true => rw [run_stays_freed es sys2 sys3 o3 hr hx] at hf3; exact absurd hf3 (by simp)
        have hf : sys.freed = false := by
          cases hx : sys.freed with
          | false => rfl
          | true =>
            rw [step_freed e hx] at hs
            simp only [Option.some.injEq, Prod.mk.injEq] at hs
            rw [← hs.1, hx] at hf2; exact absurd hf2 (by simp)
        rw [← h.2, returns_append, List.length_append, step_returns hf hs,
          run_returns es sys2 sys3 o3 hr hf3, add_calls_cons e es]

theorem submitted_length_le (h : List Obs) :
    (submitted h).length ≤ (returns h).length ∧
      ((∀ r ∈ returns h, r = 0) → (submitted h).length = (returns h).length) := by
  induction h with
  | nil => exact ⟨le_refl _, fun _ => rfl⟩
  | cons o h ih =>
    cases o with
    | add_task f a ret =>
      by_cases hr : ret = 0
      · simp only [submitted, returns, List.filterMap_cons, hr, if_true, List.length_cons,
          List.mem_cons, forall_eq_or_imp, true_and] at ih ⊢
        exact ⟨by omega, fun hall => by rw [ih.2 hall]⟩
      · simp only [submitted, returns, List.filterMap_cons, hr, if_false, List.length_cons,
          List.mem_cons, forall_eq_or_imp, false_and, false_implies, and_true] at ih ⊢
        omega
    | dequeue t f a => simpa only [submitted, returns, List.filterMap_cons] using ih
    | call t f a => simpa only [submitted, returns, List.filterMap_cons] using ih
    | discard t f a => simpa only [submitted, returns, List.filterMap_cons] using ih

theorem add_calls_submit : ∀ (n k : Nat), add_calls (submit_events k n) = n
  | 0, _ => rfl
  | n + 1, k => by
    rw [submit_events, add_calls_cons, add_calls_submit n (k + 1)]
    simp [add_calls]; omega

theorem add_calls_drain : ∀ (n : Nat), add_calls (drain_events n) = 0
  | 0 => rfl
  | n + 1 => by
    rw [drain_events, add_calls_cons, add_calls_cons (Event.worker_call 0),
      add_calls_cons (Event.worker_free 0), add_calls_drain n]
    rfl

theorem drain_obs_history : ∀ (n j : Nat),
    (calls (drain_obs j n)).length = n ∧ submitted (drain_obs j n) = [] ∧
      returns (drain_obs j n) = []
  | 0, _ => ⟨rfl, rfl, rfl⟩
  | n + 1, j => by
    obtain ⟨h1, h2, h3⟩ := drain_obs_history n (j + 1)
    simp only [drain_obs, calls, submitted, returns, List.filterMap_cons,
      List.length_cons] at h1 h2 h3 ⊢
    exact ⟨by omega, h2, h3⟩

theorem replicate_history (n : Nat) (ret : Int) :
    calls (List.replicate n (Obs.add_task 7 0 ret)) = [] ∧
      (returns (List.replicate n (Obs.add_task 7 0 ret))).length = n ∧
      (submitted (List.replicate n (Obs.add_task 7 0 ret))).length
        = if ret = 0 then n else 0 := by
  induction n with
  | zero => simp [calls, returns, submitted]
  | succ n ih =>
    obtain ⟨h1, h2, h3⟩ := ih
    simp only [List.replicate_succ, calls, returns, submitted, List.filterMap_cons,
      List.length_cons] at h1 h2 h3 ⊢
    refine ⟨h1, by omega, ?_⟩
    by_cases hr : ret = 0
    · simp only [hr, if_true, List.length_cons] at h3 ⊢
      omega
    · simpa only [hr, if_false] using h3

/-- C10 (counterexample): on a pool created with 4 workers, 1000 calls of
`threadpool_add_task` made before any worker step: the first 256 return 0,
the other 744 return -1 (queue full).  Worker 0 then runs the 256 queued
tasks, `threadpool_destroy` is called with nothing queued, the workers exit
and the call returns: 256 tasks have been executed, not 1000. -/
theorem completion_count_overflow :
    threadpool_create env_all_ok 4 = (some pool_four, trace_four) ∧
    add_calls overflow_events = 1000 ∧
    ∃ sys1 h1 sys2 h2,
      run (boot pool_four) overflow_events = some (sys1, h1) ∧
      sys1.freed = false ∧ sys1.mem.queue_size = 0 ∧ sys1.mem.queue_head = 0 ∧
      run sys1 (Event.destroy_signal :: shutdown_events) = some (sys2, h2) ∧
      sys2.freed = true ∧
      (returns h1).length = 1000 ∧ (submitted h1).length = 256 ∧
      (calls (h1 ++ h2)).length = 256 := by
  have hboot : boot pool_four = ⟨queue_state 0 0,
      [worker_pc.waiting, worker_pc.waiting, worker_pc.waiting, worker_pc.waiting],
      false⟩ := by
    rw [queue_state_zero]; rfl
  have hrun : run (boot pool_four) overflow_events
      = some (⟨queue_state 256 256,
          [worker_pc.waiting, worker_pc.waiting, worker_pc.waiting, worker_pc.waiting],
          false⟩,
          List.replicate 256 (Obs.add_task 7 0 0)
            ++ (List.replicate 744 (Obs.add_task 7 0 (-1)) ++ drain_obs 0 256)) := by
    rw [hboot, overflow_events, run_append, run_submit_ok _ 256 0 (le_refl _)]
    simp only [Nat.zero_add]
    rw [run_append, run_submit_full _ 744 256]
    simp only []
    rw [run_drain _ _ _ 256 0 (le_refl _)]
  obtain ⟨d1, d2, d3⟩ := drain_obs_history 256 0
  obtain ⟨a1, a2, a3⟩ := replicate_history 256 0
  obtain ⟨b1, b2, b3⟩ := replicate_history 744 (-1)
  refine ⟨rfl, ?_, _, _, _, _, hrun, rfl, rfl, rfl, run_shutdown, rfl, ?_, ?_, ?_⟩
  · rw [overflow_events, add_calls_append, add_calls_append, add_calls_submit,
      add_calls_submit, add_calls_drain]
  · rw [returns_append, returns_append, List.length_append, List.length_append, a2, b2, d3]
    rfl
  · rw [submitted_append, submitted_append, List.length_append, List.length_append, a3, b3,
      d2]
    rfl
  · rw [List.append_nil, calls_append, calls_append, a1, b1]
    simpa using d1

/-- C10 (amended): on a pool created with 4 workers, for every interleaving
of calls of `threadpool_add_task` and worker steps, if `threadpool_destroy`
is called when no task is queued and returns, then the tasks executed are
exactly the tasks whose submission returned 0, each once (the log is a
permutation of the accepted submissions), so the counter equals the number
of accepted calls; with 1000 calls it is 1000 when all of them returned 0. -/
theorem completion_count (env : create_env) (s : State) (tr : List Effect)
    (es1 es2 : List Event) (hcreate : threadpool_create env 4 = (some s, tr)) :
    ∃ sys1 h1, run (boot s) es1 = some (sys1, h1) ∧
      ∃ sys2 h2, run sys1 (Event.destroy_signal :: es2) = some (sys2, h2) ∧
        (sys1.freed = false → sys1.mem.queue_size = 0 → sys2.freed = true →
          (calls (h1 ++ h2)).Perm (submitted h1) ∧
          (calls (h1 ++ h2)).length = (submitted h1).length ∧
          submitted h2 = [] ∧
          (returns h1).length = add_calls es1 ∧
          (add_calls es1 = 1000 → (∀ r ∈ returns h1, r = 0) →
            (calls (h1 ++ h2)).length = 1000)) := by
  obtain ⟨sys1, h1, hrun1, hgood, _⟩ := run_good es1 (boot s) [] (boot_good hcreate)
  simp only [List.nil_append] at hgood
  refine ⟨sys1, h1, hrun1, ?_⟩
  rcases hgood with ⟨hfreed, addrs, hinv⟩ | ⟨hfreed, hfin⟩
  swap
  · refine ⟨sys1, [], run_freed hfreed _, fun hf => ?_⟩
    rw [hfreed] at hf; exact absurd hf (by simp)
  obtain ⟨sysA, oA, hstepA, hfactsA⟩ := step_facts Event.destroy_signal hinv hfreed
  have hexp : step sys1 Event.destroy_signal
      = some ({ sys1 with mem := destroy_signal sys1.mem }, []) := by
    simp only [step, hfreed, Bool.false_eq_true, if_false]
  rw [hexp] at hstepA
  simp only [Option.some.injEq, Prod.mk.injEq] at hstepA
  obtain ⟨hA1, hA2⟩ := hstepA
  subst hA1 hA2
  obtain ⟨addrsA, hinvA, _⟩ := hfactsA.inv hfreed
  obtain ⟨sys2, o2, hrun2, _, hsub2, hdeq2, _, _, hfin2⟩ :=
    run_frozen es2 _ _ addrsA hinvA hfreed (by simp [destroy_signal])
  refine ⟨sys2, o2, by rw [run_cons, hexp]; simp only [hrun2, List.nil_append], ?_⟩
  intro _ hsize hf2
  have hnil : addrsA = [] := by
    have := hinvA.queue.size
    simp only [destroy_signal] at this
    rw [hsize] at this
    exact List.length_eq_zero.1 (by exact_mod_cast this.symm)
  subst hnil
  obtain ⟨hF, hdisc, _⟩ := hfin2 hf2
  simp only [List.append_nil, List.length_nil, List.length_eq_zero] at hF hdisc
  have hkept : discarded h1 = [] := by simpa using hinvA.kept
  have hfifo := hF.fifo
  rw [dequeued_append, discarded_append, submitted_append, hdeq2, hdisc, hsub2,
    hkept] at hfifo
  simp only [List.append_nil] at hfifo
  have hperm : (calls (h1 ++ o2)).Perm (submitted h1) := by
    have := hF.log
    rw [dequeued_append, hdeq2, List.append_nil, hfifo] at this
    exact this
  have hret := run_returns es1 (boot s) sys1 h1 hrun1 hfreed
  refine ⟨hperm, hperm.length_eq, hsub2, hret, fun h1000 hall => ?_⟩
  rw [hperm.length_eq, (submitted_length_le h1).2 hall, hret, h1000]

theorem completion_count_witness :
    ∃ sys1 h1, run (boot pool_four) overflow_events = some (sys1, h1) ∧
      ∃ sys2 h2, run sys1 (Event.destroy_signal :: shutdown_events) = some (sys2, h2) ∧
        (sys1.freed = false → sys1.mem.queue_size = 0 → sys2.freed = true →
          (calls (h1 ++ h2)).Perm (submitted h1) ∧
          (calls (h1 ++ h2)).length = (submitted h1).length ∧
          submitted h2 = [] ∧
          (returns h1).length = add_calls overflow_events ∧
          (add_calls overflow_events = 1000 → (∀ r ∈ returns h1, r = 0) →
            (calls (h1 ++ h2)).length = 1000)) :=
  completion_count env_all_ok pool_four trace_four overflow_events shutdown_events
    create_four

end CThread
